import Mathlib

/-!
A shallow embedding of `src/drawing/conics.rs` (circle and ellipse rasterization)
together with proofs about the drawing routines it exposes.

Conventions used throughout:

* Rust `i32` coordinates and radii are embedded as `Int`: the algorithms are
  specified over mathematical integers and no claim concerns wrap-around.
* Canvas dimensions (`u32`) are embedded as `Nat`.
* An image (the `GenericImage` the routines mutate) is a `Canvas C`: fixed
  dimensions plus a total pixel map; only the part of the map with coordinates
  inside the dimensions is observable, and drawing never reads the map.
* The `f32` decision variable `p` of the midpoint ellipse algorithm only ever
  holds integer multiples of one quarter: every exact operand and every exact
  operation result is a quarter-integer, and IEEE-754 binary32 rounding maps a
  quarter-integer to a quarter-integer (a representable value near one lies on
  a grid no finer than quarters).  An `f32` value is therefore embedded as the
  integer `4*p` (variables named `p4`), and round-to-nearest-even is applied
  after every floating-point operation by `roundQ`, which is the identity
  below `2^24` quarters and rounds away precision beyond the 24-bit binary32
  significand exactly as the hardware does.  Within the `i32` input range no
  intermediate value reaches the binary32 overflow threshold and no nonzero
  value is subnormal, so exponent-range effects cannot arise and `roundQ`
  models the arithmetic faithfully.  `powi(2)` is a single rounded multiply.
  The comparisons `p < 0.0` and `p > 0.0` of the source become `p4 < 0` and
  `0 < p4`.
* `draw_if_in_bounds` (from `drawing/mod.rs`) and `draw_line_segment_mut` (from
  `drawing/line.rs`) are code of this repository that is not under `src/`;
  they are modelled from the spec, as their doc comments state.
* Rust while loops become recursive functions; the two ellipse loops carry a
  proposition argument (satisfied at every call site) that makes their
  termination measure decrease.
-/

/-- A raster canvas: fixed dimensions and a pixel map.  Only coordinates with
`x < width` and `y < height` are observable pixels of the image. -/
structure Canvas (C : Type) where
  width : Nat
  height : Nat
  pix : Nat → Nat → C

/-- Overwrite one pixel (the unchecked `put_pixel` underlying the checked write). -/
def setPix {C : Type} (img : Canvas C) (x y : Nat) (c : C) : Canvas C :=
  { img with pix := fun a b => if a = x ∧ b = y then c else img.pix a b }

/-- Modelled from the spec: `draw_if_in_bounds` lives in `drawing/mod.rs`, which
is not under `src/`.  Spec section 4.1: "writes the color to that pixel iff
`0 ≤ x < W` and `0 ≤ y < H`; otherwise does nothing and signals no error." -/
def draw_if_in_bounds {C : Type} (img : Canvas C) (x y : Int) (c : C) : Canvas C :=
  if 0 ≤ x ∧ x < (img.width : Int) ∧ 0 ≤ y ∧ y < (img.height : Int) then
    setPix img x.toNat y.toNat c
  else
    img

/-- Write one color at every point of a list, through the bounds-checked write. -/
def plotAll {C : Type} (img : Canvas C) (c : C) (pts : List (Int × Int)) : Canvas C :=
  pts.foldl (fun im p => draw_if_in_bounds im p.1 p.2 c) img

/-- The integer points of a horizontal span, both endpoints included. -/
def spanPts (a b y : Int) : List (Int × Int) :=
  (List.range ((max a b - min a b).toNat + 1)).map
    (fun (i : Nat) => (min a b + (i : Int), y))

/-- Modelled from the spec: `draw_line_segment_mut` lives in `drawing/line.rs`,
which is not under `src/`.  Spec section 6 fixes its contract for the only calls
this core makes: "must correctly rasterize a perfectly horizontal segment
inclusive of both endpoints, clipped to canvas bounds."  Every call site in
`conics.rs` passes two endpoints with equal rows and integer coordinates, so
exactly that horizontal contract is modelled, the row being taken from the first
endpoint, and clipping going through the bounds-checked pixel write. -/
def draw_line_segment_mut {C : Type} (img : Canvas C) (p q : Int × Int) (c : C) :
    Canvas C :=
  plotAll img c (spanPts p.1 q.1 p.2)

/-- The loop of `draw_hollow_circle_mut` (`conics.rs` lines 198-220): Bresenham
circle stepping, eight octant-symmetric bounds-checked writes per iteration. -/
def hollowCircleLoop {C : Type} (img : Canvas C) (x0 y0 x y err : Int) (c : C) :
    Canvas C :=
  if h : y ≤ x then
    let i1 := draw_if_in_bounds img (x0 + x) (y0 + y) c
    let i2 := draw_if_in_bounds i1 (x0 + y) (y0 + x) c
    let i3 := draw_if_in_bounds i2 (x0 - y) (y0 + x) c
    let i4 := draw_if_in_bounds i3 (x0 - x) (y0 + y) c
    let i5 := draw_if_in_bounds i4 (x0 - x) (y0 - y) c
    let i6 := draw_if_in_bounds i5 (x0 - y) (y0 - x) c
    let i7 := draw_if_in_bounds i6 (x0 + y) (y0 - x) c
    let i8 := draw_if_in_bounds i7 (x0 + x) (y0 - y) c
    let y' := y + 1
    let e1 := err + 1 + 2 * y'
    if 0 < 2 * (e1 - x) + 1 then
      hollowCircleLoop i8 x0 y0 (x - 1) y' (e1 + 1 - 2 * (x - 1)) c
    else
      hollowCircleLoop i8 x0 y0 x y' e1 c
  else
    img
termination_by (x - y + 1).toNat
decreasing_by all_goals omega

/-- `draw_hollow_circle_mut` (`conics.rs` lines 193-221). -/
def draw_hollow_circle_mut {C : Type} (img : Canvas C) (center : Int × Int)
    (radius : Int) (c : C) : Canvas C :=
  hollowCircleLoop img center.1 center.2 radius 0 0 c

/-- The loop of `draw_filled_circle_mut` (`conics.rs` lines 235-267): same
stepping as the hollow loop, four horizontal spans per iteration. -/
def filledCircleLoop {C : Type} (img : Canvas C) (x0 y0 x y err : Int) (c : C) :
    Canvas C :=
  if h : y ≤ x then
    let i1 := draw_line_segment_mut img (x0 - x, y0 + y) (x0 + x, y0 + y) c
    let i2 := draw_line_segment_mut i1 (x0 - y, y0 + x) (x0 + y, y0 + x) c
    let i3 := draw_line_segment_mut i2 (x0 - x, y0 - y) (x0 + x, y0 - y) c
    let i4 := draw_line_segment_mut i3 (x0 - y, y0 - x) (x0 + y, y0 - x) c
    let y' := y + 1
    let e1 := err + 1 + 2 * y'
    if 0 < 2 * (e1 - x) + 1 then
      filledCircleLoop i4 x0 y0 (x - 1) y' (e1 + 1 - 2 * (x - 1)) c
    else
      filledCircleLoop i4 x0 y0 x y' e1 c
  else
    img
termination_by (x - y + 1).toNat
decreasing_by all_goals omega

/-- `draw_filled_circle_mut` (`conics.rs` lines 224-268). -/
def draw_filled_circle_mut {C : Type} (img : Canvas C) (center : Int × Int)
    (radius : Int) (c : C) : Canvas C :=
  filledCircleLoop img center.1 center.2 radius 0 0 c

/-- The fresh output canvas of the non-mutating wrappers:
`ImageBuffer::new(image.width(), image.height())` followed by
`out.copy_from(image, 0, 0)` — a new canvas of the same dimensions holding all
the input's pixel content (its unobservable out-of-bounds map is the allocation
default). -/
def copyCanvas {C : Type} [Inhabited C] (img : Canvas C) : Canvas C :=
  { width := img.width
    height := img.height
    pix := fun x y => if x < img.width ∧ y < img.height then img.pix x y else default }

/-- `draw_hollow_circle` (`conics.rs` lines 176-190). -/
def draw_hollow_circle {C : Type} [Inhabited C] (img : Canvas C)
    (center : Int × Int) (radius : Int) (c : C) : Canvas C :=
  draw_hollow_circle_mut (copyCanvas img) center radius c

/-- `draw_filled_circle` (`conics.rs` lines 271-285). -/
def draw_filled_circle {C : Type} [Inhabited C] (img : Canvas C)
    (center : Int × Int) (radius : Int) (c : C) : Canvas C :=
  draw_filled_circle_mut (copyCanvas img) center radius c

/-- The circle state machine exactly as the spec describes it (spec section
4.2): states are `(x, y, err)` triples listed at each loop entry satisfying the
guard `y ≤ x`, with the transition increment `y`, `err += 1 + 2y`, and, when
`2(err − x) + 1 > 0`, decrement `x` and `err += 1 − 2x`. -/
def circleStates (x y err : Int) : List (Int × Int × Int) :=
  if h : y ≤ x then
    (x, y, err) ::
      (let y' := y + 1
       let e1 := err + 1 + 2 * y'
       if 0 < 2 * (e1 - x) + 1 then
         circleStates (x - 1) y' (e1 + 1 - 2 * (x - 1))
       else
         circleStates x y' e1)
  else
    []
termination_by (x - y + 1).toNat
decreasing_by all_goals omega

/-- The eight octant-symmetric points one hollow-circle iteration writes, in
source order. -/
def oct8 (x0 y0 x y : Int) : List (Int × Int) :=
  [(x0 + x, y0 + y), (x0 + y, y0 + x), (x0 - y, y0 + x), (x0 - x, y0 + y),
   (x0 - x, y0 - y), (x0 - y, y0 - x), (x0 + y, y0 - x), (x0 + x, y0 - y)]

/-- The points of the four horizontal spans one filled-circle iteration draws,
in source order. -/
def circleSpanQuad (x0 y0 x y : Int) : List (Int × Int) :=
  spanPts (x0 - x) (x0 + x) (y0 + y) ++ spanPts (x0 - y) (x0 + y) (y0 + x) ++
    spanPts (x0 - x) (x0 + x) (y0 - y) ++ spanPts (x0 - y) (x0 + y) (y0 - x)

/-- The four symmetric points one hollow-ellipse render step writes, in source
order. -/
def quad4 (x0 y0 : Int) (q : Int × Int) : List (Int × Int) :=
  [(x0 + q.1, y0 + q.2), (x0 - q.1, y0 + q.2), (x0 + q.1, y0 - q.2),
   (x0 - q.1, y0 - q.2)]

/-- The points of the two horizontal spans one filled-ellipse render step draws,
in source order. -/
def pairSpanPts (x0 y0 : Int) (q : Int × Int) : List (Int × Int) :=
  spanPts (x0 - q.1) (x0 + q.1) (y0 + q.2) ++ spanPts (x0 - q.1) (x0 + q.1) (y0 - q.2)

/-- Fuel-indexed binary search for the binary32 ulp exponent of `m` quarters:
the number of halvings needed to bring `m` under `2^24`.  A value of `m`
quarters lies in a binade whose representable grid spacing is `2^(ulpExp m)`
quarters; below `2^24` quarters every quarter-integer is representable.  The
fuel `m` always suffices, since each step halves the argument. -/
def ulpFuel : Nat → Nat → Nat
  | 0, _ => 0
  | f + 1, m => if m < 2 ^ 24 then 0 else ulpFuel f (m / 2) + 1

/-- The binary32 grid spacing (ulp), in quarters, at magnitude `m` quarters. -/
def ulpExp (m : Nat) : Nat := ulpFuel m m

/-- Round `m` to the nearest multiple of `2^k`, ties to the even multiple:
the significand part of IEEE-754 round-to-nearest-even. -/
def rne (m k : Nat) : Nat :=
  if 2 * (m % 2 ^ k) < 2 ^ k then m / 2 ^ k * 2 ^ k
  else if 2 ^ k < 2 * (m % 2 ^ k) then (m / 2 ^ k + 1) * 2 ^ k
  else if (m / 2 ^ k) % 2 = 0 then m / 2 ^ k * 2 ^ k
  else (m / 2 ^ k + 1) * 2 ^ k

/-- IEEE-754 binary32 round-to-nearest-even on quarter-scaled integers: the
`f32` nearest to the value `n/4`, scaled back by four.  Rounding is symmetric
in the sign.  On the reachable value range (far below overflow, far above the
subnormals) this is exactly the hardware rounding. -/
def roundQ (n : Int) : Int :=
  if 0 ≤ n then ((rne n.toNat (ulpExp n.toNat) : Nat) : Int)
  else -((rne (-n).toNat (ulpExp (-n).toNat) : Nat) : Int)

/-- The Rust cast `i as f32` of an integer, quarter-scaled. -/
def i2f (i : Int) : Int := roundQ (4 * i)

/-- `f32` addition on quarter-scaled values: exact sum, then one rounding. -/
def fadd (a b : Int) : Int := roundQ (a + b)

/-- `f32` subtraction on quarter-scaled values. -/
def fsub (a b : Int) : Int := roundQ (a - b)

/-- `f32` multiplication on quarter-scaled values: the exact product of `a/4`
and `b/4` is `a*b/16`, that is `a*b/4` quarters, then one rounding.  At every
call site below one factor's quarter count is divisible by four or both are
even (a cast integer, or the sum `x as f32 + 0.5`), so the division is exact
and the division convention is irrelevant. -/
def fmul (a b : Int) : Int := roundQ (a * b / 4)

theorem ulpFuel_le (f : Nat) : ∀ m : Nat, 0 < m → 2 ^ ulpFuel f m ≤ m := by
  induction f with
  | zero =>
    intro m hm
    rw [ulpFuel]
    omega
  | succ f ih =>
    intro m hm
    rw [ulpFuel]
    by_cases h : m < 2 ^ 24
    · rw [if_pos h]
      omega
    · rw [if_neg h, pow_succ]
      have h2 := ih (m / 2) (by omega)
      omega

/-- Rounding moves a value by at most half an ulp (lower side). -/
theorem two_mul_le_rne (m k : Nat) : 2 * m ≤ 2 * rne m k + 2 ^ k := by
  have hm : m / 2 ^ k * 2 ^ k + m % 2 ^ k = m := Nat.div_add_mod' m (2 ^ k)
  have hr : m % 2 ^ k < 2 ^ k := Nat.mod_lt _ (by positivity)
  rw [rne]
  generalize hT : m / 2 ^ k * 2 ^ k = T at *
  have hT1 : (m / 2 ^ k + 1) * 2 ^ k = T + 2 ^ k := by rw [add_mul, hT, one_mul]
  rw [hT1]
  split_ifs <;> omega

theorem le_two_mul_roundQ {n : Int} (h : 0 ≤ n) : n ≤ 2 * roundQ n := by
  rw [roundQ, if_pos h]
  have h1 := two_mul_le_rne n.toNat (ulpExp n.toNat)
  rcases Nat.eq_zero_or_pos n.toNat with h0 | h0
  · have hz : ulpExp n.toNat = 0 := by rw [h0]; rfl
    rw [hz] at h1 ⊢
    omega
  · have h2 : 2 ^ ulpExp n.toNat ≤ n.toNat := by
      rw [ulpExp]; exact ulpFuel_le _ _ h0
    omega

/-- Rounding never turns a positive value into zero or a negative one. -/
theorem roundQ_pos {n : Int} (h : 0 < n) : 0 < roundQ n := by
  have := le_two_mul_roundQ h.le
  omega

theorem ulpExp_small {m : Nat} (h : m < 2 ^ 24) : ulpExp m = 0 := by
  rw [ulpExp]
  cases m with
  | zero => rfl
  | succ f => rw [ulpFuel, if_pos h]

theorem rne_exp_zero (m : Nat) : rne m 0 = m := by
  simp [rne, Nat.mod_one, Nat.div_one]

/-- Below `2^24` quarters every quarter-integer is a binary32 value. -/
theorem roundQ_eq_self {n : Int} (h0 : 0 ≤ n) (h : n < 2 ^ 24) : roundQ n = n := by
  rw [roundQ, if_pos h0, ulpExp_small (by omega), rne_exp_zero]
  omega

theorem i2f_zero : i2f 0 = 0 := rfl

theorem fadd_zero_pos {a : Int} (h : 0 < a) : 0 < fadd a 0 := by
  rw [fadd, add_zero]
  exact roundQ_pos h

theorem fsub_zero_pos {a : Int} (h : 0 < a) : 0 < fsub a 0 := by
  rw [fsub, sub_zero]
  exact roundQ_pos h

/-- The quarter-scaled `0.25 * h2 as f32`-style product of a positive integer
stays positive. -/
theorem fmul_i2f_one_pos (h2 : Int) (hp : 0 < h2) : 0 < fmul (i2f h2) 1 := by
  have h4 : (4 : Int) ≤ roundQ (4 * h2) := by
    by_cases hs : 4 * h2 < 2 ^ 24
    · rw [roundQ_eq_self (by omega) hs]; omega
    · have := le_two_mul_roundQ (show (0 : Int) ≤ 4 * h2 by omega)
      omega
  rw [fmul, mul_one, i2f]
  exact roundQ_pos (by omega)

/-- At every call of the first ellipse-loop the termination measure decreases
because either the height radius is nonzero (so `0 < h2`) or the loop guard
fails outright; this proposition records that and is threaded through the loop. -/
def R1Ok (w2 h2 px py : Int) : Prop :=
  (0 < h2 ∧ 0 ≤ w2) ∨ py ≤ px

/-- The first region loop of `draw_ellipse` (`conics.rs` lines 144-156), generic
in the render callback exactly as the source is: while `px < py`, increment `x`,
`px += 2*h2`, then either `p += (h2 + px) as f32` (when `p < 0.0`) or decrement
`y`, `py -= 2*w2`, `p += (h2 + px - py) as f32`; render the new point after each
step.  The `f32` accumulation is quarter-scaled: the cast integer increment goes
through `i2f` and the addition through `fadd`, each applying binary32 rounding.
Returns the final render state together with the final `x`, `y`, `px`, `py`. -/
def ellipseRegion1 {S : Type} (render : S → Int → Int → Int → Int → S)
    (x0 y0 w2 h2 x y px py p4 : Int) (s : S) (hk : R1Ok w2 h2 px py) :
    S × Int × Int × Int × Int :=
  if hg : px < py then
    let x' := x + 1
    let px' := px + 2 * h2
    if p4 < 0 then
      ellipseRegion1 render x0 y0 w2 h2 x' y px' py (fadd p4 (i2f (h2 + px')))
        (render s x0 y0 x' y) (Or.inl (hk.resolve_right (not_le.mpr hg)))
    else
      let y' := y - 1
      let py' := py - 2 * w2
      ellipseRegion1 render x0 y0 w2 h2 x' y' px' py' (fadd p4 (i2f (h2 + px' - py')))
        (render s x0 y0 x' y') (Or.inl (hk.resolve_right (not_le.mpr hg)))
  else
    (s, x, y, px, py)
termination_by (py - px).toNat
decreasing_by
  all_goals
    (rcases hk.resolve_right (not_le.mpr hg) with ⟨h1, h2⟩; omega)

/-- The second region loop of `draw_ellipse` (`conics.rs` lines 160-172): while
`0 < y`, decrement `y`, `py -= 2*w2`, then either `p += (w2 - py) as f32` (when
`p > 0.0`) or increment `x`, `px += 2*h2`, `p += (w2 - py + px) as f32`; render
after each step.  As in region one, each `f32` operation rounds via `i2f` and
`fadd`. -/
def ellipseRegion2 {S : Type} (render : S → Int → Int → Int → Int → S)
    (x0 y0 w2 h2 x y px py p4 : Int) (s : S) : S :=
  if hg : 0 < y then
    let y' := y - 1
    let py' := py - 2 * w2
    if 0 < p4 then
      ellipseRegion2 render x0 y0 w2 h2 x y' px py' (fadd p4 (i2f (w2 - py')))
        (render s x0 y0 x y')
    else
      let x' := x + 1
      let px' := px + 2 * h2
      ellipseRegion2 render x0 y0 w2 h2 x' y' px' py' (fadd p4 (i2f (w2 - py' + px')))
        (render s x0 y0 x' y')
  else
    s
termination_by y.toNat
decreasing_by all_goals omega

/-- The termination proposition holds at the initial state of region one. -/
theorem r1Ok_start (wr hr : Int) : R1Ok (wr * wr) (hr * hr) 0 (2 * (wr * wr) * hr) := by
  rcases eq_or_ne hr 0 with h | h
  · exact Or.inr (by simp [h])
  · exact Or.inl ⟨mul_self_pos.mpr h, mul_self_nonneg wr⟩

/-- `draw_ellipse` (`conics.rs` lines 128-173): the midpoint ellipse stepper,
generic in the render callback.  The initial point is rendered before region
one.  `p` is carried quarter-scaled with binary32 rounding after every `f32`
operation: the initial `p = (h2 - w2*height_radius) as f32 + (0.25 * w2 as f32)`
becomes `fadd (i2f (h2 - w2*height_radius)) (fmul 1 (i2f w2))` (the literal
`0.25` is one quarter), and the region-two recomputation
`p = (h2 as f32) * (x as f32 + 0.5).powi(2) + (w2*(y-1)^2) as f32 - (w2*h2) as f32`
becomes the same composition over `i2f`/`fadd`/`fmul`/`fsub`, the literal `0.5`
being two quarters and `powi(2)` one rounded multiply. -/
def draw_ellipse {S : Type} (render : S → Int → Int → Int → Int → S)
    (center : Int × Int) (width_radius height_radius : Int) (s : S) : S :=
  let x0 := center.1
  let y0 := center.2
  let w2 := width_radius * width_radius
  let h2 := height_radius * height_radius
  let s1 := render s x0 y0 0 height_radius
  let r1 := ellipseRegion1 render x0 y0 w2 h2 0 height_radius 0
    (2 * w2 * height_radius) (fadd (i2f (h2 - w2 * height_radius)) (fmul 1 (i2f w2)))
    s1 (r1Ok_start width_radius height_radius)
  ellipseRegion2 render x0 y0 w2 h2 r1.2.1 r1.2.2.1 r1.2.2.2.1 r1.2.2.2.2
    (fsub (fadd (fmul (i2f h2) (fmul (fadd (i2f r1.2.1) 2) (fadd (i2f r1.2.1) 2)))
      (i2f (w2 * (r1.2.2.1 - 1) ^ 2))) (i2f (w2 * h2))) r1.1

/-- The render closure of `draw_hollow_ellipse_mut` (`conics.rs` lines 53-58):
four symmetric bounds-checked point writes. -/
def draw_quad_pixels {C : Type} (c : C) :
    Canvas C → Int → Int → Int → Int → Canvas C :=
  fun img x0 y0 x y =>
    draw_if_in_bounds (draw_if_in_bounds (draw_if_in_bounds (draw_if_in_bounds
      img (x0 + x) (y0 + y) c) (x0 - x) (y0 + y) c) (x0 + x) (y0 - y) c)
      (x0 - x) (y0 - y) c

/-- The render closure of `draw_filled_ellipse_mut` (`conics.rs` lines 108-121):
two horizontal spans through the line-segment drawer. -/
def draw_line_pairs {C : Type} (c : C) :
    Canvas C → Int → Int → Int → Int → Canvas C :=
  fun img x0 y0 x y =>
    draw_line_segment_mut
      (draw_line_segment_mut img (x0 - x, y0 + y) (x0 + x, y0 + y) c)
      (x0 - x, y0 - y) (x0 + x, y0 - y) c

/-- `draw_hollow_ellipse_mut` (`conics.rs` lines 37-61): delegate to the circle
algorithm when the radii are equal, otherwise run the ellipse stepper with the
four-point render closure. -/
def draw_hollow_ellipse_mut {C : Type} (img : Canvas C) (center : Int × Int)
    (width_radius height_radius : Int) (c : C) : Canvas C :=
  if width_radius = height_radius then
    draw_hollow_circle_mut img center width_radius c
  else
    draw_ellipse (draw_quad_pixels c) center width_radius height_radius img

/-- `draw_filled_ellipse_mut` (`conics.rs` lines 92-124). -/
def draw_filled_ellipse_mut {C : Type} (img : Canvas C) (center : Int × Int)
    (width_radius height_radius : Int) (c : C) : Canvas C :=
  if width_radius = height_radius then
    draw_filled_circle_mut img center width_radius c
  else
    draw_ellipse (draw_line_pairs c) center width_radius height_radius img

/-- `draw_hollow_ellipse` (`conics.rs` lines 14-29). -/
def draw_hollow_ellipse {C : Type} [Inhabited C] (img : Canvas C)
    (center : Int × Int) (width_radius height_radius : Int) (c : C) : Canvas C :=
  draw_hollow_ellipse_mut (copyCanvas img) center width_radius height_radius c

/-- `draw_filled_ellipse` (`conics.rs` lines 69-84). -/
def draw_filled_ellipse {C : Type} [Inhabited C] (img : Canvas C)
    (center : Int × Int) (width_radius height_radius : Int) (c : C) : Canvas C :=
  draw_filled_ellipse_mut (copyCanvas img) center width_radius height_radius c

/-- The list of offsets rendered by region one together with the final loop
state, mirroring `ellipseRegion1` step for step. -/
def ellipseTrace1 (w2 h2 x y px py p4 : Int) (hk : R1Ok w2 h2 px py) :
    List (Int × Int) × Int × Int × Int × Int :=
  if hg : px < py then
    let x' := x + 1
    let px' := px + 2 * h2
    if p4 < 0 then
      let r := ellipseTrace1 w2 h2 x' y px' py (fadd p4 (i2f (h2 + px')))
        (Or.inl (hk.resolve_right (not_le.mpr hg)))
      ((x', y) :: r.1, r.2)
    else
      let y' := y - 1
      let py' := py - 2 * w2
      let r := ellipseTrace1 w2 h2 x' y' px' py' (fadd p4 (i2f (h2 + px' - py')))
        (Or.inl (hk.resolve_right (not_le.mpr hg)))
      ((x', y') :: r.1, r.2)
  else
    ([], x, y, px, py)
termination_by (py - px).toNat
decreasing_by
  all_goals
    (rcases hk.resolve_right (not_le.mpr hg) with ⟨h1, h2⟩; omega)

/-- The list of offsets rendered by region two, mirroring `ellipseRegion2`. -/
def ellipseTrace2 (w2 h2 x y px py p4 : Int) : List (Int × Int) :=
  if hg : 0 < y then
    let y' := y - 1
    let py' := py - 2 * w2
    if 0 < p4 then
      (x, y') :: ellipseTrace2 w2 h2 x y' px py' (fadd p4 (i2f (w2 - py')))
    else
      let x' := x + 1
      let px' := px + 2 * h2
      (x', y') :: ellipseTrace2 w2 h2 x' y' px' py' (fadd p4 (i2f (w2 - py' + px')))
  else
    []
termination_by y.toNat
decreasing_by all_goals omega

/-- All offsets the ellipse stepper renders, in order: the initial point, then
region one, then region two. -/
def ellipseOffsets (wr hr : Int) : List (Int × Int) :=
  let w2 := wr * wr
  let h2 := hr * hr
  let r1 := ellipseTrace1 w2 h2 0 hr 0 (2 * w2 * hr)
    (fadd (i2f (h2 - w2 * hr)) (fmul 1 (i2f w2))) (r1Ok_start wr hr)
  (0, hr) ::
    (r1.1 ++ ellipseTrace2 w2 h2 r1.2.1 r1.2.2.1 r1.2.2.2.1 r1.2.2.2.2
      (fsub (fadd (fmul (i2f h2) (fmul (fadd (i2f r1.2.1) 2) (fadd (i2f r1.2.1) 2)))
        (i2f (w2 * (r1.2.2.1 - 1) ^ 2))) (i2f (w2 * h2))))

/-! ### Basic facts about the bounds-checked write and `plotAll` -/

theorem draw_if_in_bounds_width {C : Type} (img : Canvas C) (x y : Int) (c : C) :
    (draw_if_in_bounds img x y c).width = img.width := by
  unfold draw_if_in_bounds setPix; split <;> rfl

theorem draw_if_in_bounds_height {C : Type} (img : Canvas C) (x y : Int) (c : C) :
    (draw_if_in_bounds img x y c).height = img.height := by
  unfold draw_if_in_bounds setPix; split <;> rfl

theorem draw_if_in_bounds_pix {C : Type} (img : Canvas C) (x y : Int) (c : C)
    (X Y : Nat) :
    (draw_if_in_bounds img x y c).pix X Y =
      if x = (X : Int) ∧ y = (Y : Int) ∧ X < img.width ∧ Y < img.height then c
      else img.pix X Y := by
  unfold draw_if_in_bounds
  by_cases h : 0 ≤ x ∧ x < (img.width : Int) ∧ 0 ≤ y ∧ y < (img.height : Int)
  · rw [if_pos h]
    show (if X = x.toNat ∧ Y = y.toNat then c else img.pix X Y) = _
    by_cases h2 : x = (X : Int) ∧ y = (Y : Int) ∧ X < img.width ∧ Y < img.height
    · rw [if_pos (by omega), if_pos h2]
    · rw [if_neg (by omega), if_neg h2]
  · rw [if_neg h, if_neg (by omega)]

theorem plotAll_cons {C : Type} (img : Canvas C) (c : C) (p : Int × Int)
    (pts : List (Int × Int)) :
    plotAll img c (p :: pts) = plotAll (draw_if_in_bounds img p.1 p.2 c) c pts := rfl

theorem plotAll_append {C : Type} (img : Canvas C) (c : C)
    (l1 l2 : List (Int × Int)) :
    plotAll img c (l1 ++ l2) = plotAll (plotAll img c l1) c l2 := by
  simp [plotAll, List.foldl_append]

theorem plotAll_width {C : Type} (c : C) :
    ∀ (pts : List (Int × Int)) (img : Canvas C), (plotAll img c pts).width = img.width := by
  intro pts
  induction pts with
  | nil => intro img; rfl
  | cons p rest ih =>
    intro img
    rw [plotAll_cons, ih, draw_if_in_bounds_width]

theorem plotAll_height {C : Type} (c : C) :
    ∀ (pts : List (Int × Int)) (img : Canvas C), (plotAll img c pts).height = img.height := by
  intro pts
  induction pts with
  | nil => intro img; rfl
  | cons p rest ih =>
    intro img
    rw [plotAll_cons, ih, draw_if_in_bounds_height]

theorem plotAll_pix {C : Type} (c : C) (X Y : Nat) :
    ∀ (pts : List (Int × Int)) (img : Canvas C),
      (plotAll img c pts).pix X Y =
        if ((X : Int), (Y : Int)) ∈ pts ∧ X < img.width ∧ Y < img.height then c
        else img.pix X Y := by
  intro pts
  induction pts with
  | nil => intro img; simp [plotAll]
  | cons p rest ih =>
    intro img
    rw [plotAll_cons, ih, draw_if_in_bounds_width, draw_if_in_bounds_height,
      draw_if_in_bounds_pix]
    have hpq : (((X : Int), (Y : Int)) = p) ↔ (p.1 = (X : Int) ∧ p.2 = (Y : Int)) := by
      cases p; simp [Prod.ext_iff, eq_comm]
    by_cases hb : X < img.width ∧ Y < img.height
    · by_cases hr : ((X : Int), (Y : Int)) ∈ rest
      · simp [hr, hb, List.mem_cons]
      · by_cases hp : p.1 = (X : Int) ∧ p.2 = (Y : Int)
        · simp [hr, hb, hp, List.mem_cons, hpq]
        · simp [hr, hb, hp, List.mem_cons, hpq]
    · simp [hb]

theorem plotAll_of_oob {C : Type} (c : C) :
    ∀ (pts : List (Int × Int)) (img : Canvas C),
      (∀ q ∈ pts, ¬(0 ≤ q.1 ∧ q.1 < (img.width : Int) ∧ 0 ≤ q.2 ∧
        q.2 < (img.height : Int))) →
      plotAll img c pts = img := by
  intro pts
  induction pts with
  | nil => intro img _; rfl
  | cons p rest ih =>
    intro img h
    have h1 : draw_if_in_bounds img p.1 p.2 c = img := by
      rw [draw_if_in_bounds, if_neg (h p (List.mem_cons_self p rest))]
    rw [plotAll_cons, h1]
    exact ih img (fun q hq => h q (List.mem_cons_of_mem p hq))

theorem mem_spanPts {u v a b y : Int} :
    (u, v) ∈ spanPts a b y ↔ v = y ∧ min a b ≤ u ∧ u ≤ max a b := by
  have h1 : min a b ≤ max a b := min_le_max
  unfold spanPts
  rw [List.mem_map]
  constructor
  · rintro ⟨i, hi, heq⟩
    rw [List.mem_range] at hi
    rw [Prod.mk.injEq] at heq
    obtain ⟨h2, h3⟩ := heq
    generalize hm : min a b = m at *
    generalize hM : max a b = M at *
    omega
  · rintro ⟨hv, hlo, hhi⟩
    refine ⟨(u - min a b).toNat, ?_, ?_⟩
    · rw [List.mem_range]
      generalize hm : min a b = m at *
      generalize hM : max a b = M at *
      omega
    · rw [Prod.mk.injEq]
      refine ⟨?_, hv.symm⟩
      generalize hm : min a b = m at *
      omega

/-! ### The circle loops follow the spec state machine -/

theorem hollowCircleLoop_eq {C : Type} (c : C) (x0 y0 : Int) :
    ∀ (n : Nat) (x y err : Int), (x - y + 1).toNat ≤ n → ∀ (img : Canvas C),
      hollowCircleLoop img x0 y0 x y err c =
        plotAll img c
          ((circleStates x y err).flatMap (fun s => oct8 x0 y0 s.1 s.2.1)) := by
  intro n
  induction n with
  | zero =>
    intro x y err hm img
    rw [hollowCircleLoop, circleStates, dif_neg (by omega : ¬ y ≤ x),
      dif_neg (by omega : ¬ y ≤ x)]
    rfl
  | succ n IH =>
    intro x y err hm img
    rw [hollowCircleLoop, circleStates]
    by_cases h : y ≤ x
    · rw [dif_pos h, dif_pos h]
      simp only [List.flatMap_cons]
      rw [plotAll_append]
      by_cases hb : 0 < 2 * (err + 1 + 2 * (y + 1) - x) + 1
      · rw [if_pos hb, if_pos hb,
          IH (x - 1) (y + 1) (err + 1 + 2 * (y + 1) + 1 - 2 * (x - 1)) (by omega)]
        rfl
      · rw [if_neg hb, if_neg hb, IH x (y + 1) (err + 1 + 2 * (y + 1)) (by omega)]
        rfl
    · rw [dif_neg h, dif_neg h]
      rfl

theorem filledCircleLoop_eq {C : Type} (c : C) (x0 y0 : Int) :
    ∀ (n : Nat) (x y err : Int), (x - y + 1).toNat ≤ n → ∀ (img : Canvas C),
      filledCircleLoop img x0 y0 x y err c =
        plotAll img c
          ((circleStates x y err).flatMap (fun s => circleSpanQuad x0 y0 s.1 s.2.1)) := by
  intro n
  induction n with
  | zero =>
    intro x y err hm img
    rw [filledCircleLoop, circleStates, dif_neg (by omega : ¬ y ≤ x),
      dif_neg (by omega : ¬ y ≤ x)]
    rfl
  | succ n IH =>
    intro x y err hm img
    rw [filledCircleLoop, circleStates]
    by_cases h : y ≤ x
    · rw [dif_pos h, dif_pos h]
      simp only [List.flatMap_cons]
      rw [plotAll_append]
      unfold circleSpanQuad
      rw [plotAll_append, plotAll_append, plotAll_append]
      by_cases hb : 0 < 2 * (err + 1 + 2 * (y + 1) - x) + 1
      · rw [if_pos hb, if_pos hb,
          IH (x - 1) (y + 1) (err + 1 + 2 * (y + 1) + 1 - 2 * (x - 1)) (by omega)]
        rfl
      · rw [if_neg hb, if_neg hb, IH x (y + 1) (err + 1 + 2 * (y + 1)) (by omega)]
        rfl
    · rw [dif_neg h, dif_neg h]
      rfl

theorem circleStates_le :
    ∀ (n : Nat) (x y err : Int), (x - y + 1).toNat ≤ n →
      ∀ s ∈ circleStates x y err, s.1 ≤ x ∧ y ≤ s.2.1 ∧ s.2.1 ≤ s.1 := by
  intro n
  induction n with
  | zero =>
    intro x y err hm s hs
    rw [circleStates, dif_neg (by omega : ¬ y ≤ x)] at hs
    simp at hs
  | succ n IH =>
    intro x y err hm s hs
    rw [circleStates] at hs
    by_cases h : y ≤ x
    · rw [dif_pos h] at hs
      simp only [List.mem_cons] at hs
      rcases hs with rfl | hs
      · exact ⟨le_refl _, le_refl _, h⟩
      · by_cases hb : 0 < 2 * (err + 1 + 2 * (y + 1) - x) + 1
        · rw [if_pos hb] at hs
          have h2 := IH (x - 1) (y + 1) (err + 1 + 2 * (y + 1) + 1 - 2 * (x - 1))
            (by omega) s hs
          exact ⟨by omega, by omega, h2.2.2⟩
        · rw [if_neg hb] at hs
          have h2 := IH x (y + 1) (err + 1 + 2 * (y + 1)) (by omega) s hs
          exact ⟨h2.1, by omega, h2.2.2⟩
    · rw [dif_neg h] at hs
      simp at hs

/-! ### The ellipse stepper renders exactly its offset trace -/

theorem ellipseRegion1_eq {S : Type} (render : S → Int → Int → Int → Int → S)
    (x0 y0 w2 h2 : Int) :
    ∀ (n : Nat) (x y px py p4 : Int) (hk : R1Ok w2 h2 px py), (py - px).toNat ≤ n →
      ∀ (s : S),
      ellipseRegion1 render x0 y0 w2 h2 x y px py p4 s hk =
        ((ellipseTrace1 w2 h2 x y px py p4 hk).1.foldl
            (fun t q => render t x0 y0 q.1 q.2) s,
          (ellipseTrace1 w2 h2 x y px py p4 hk).2) := by
  intro n
  induction n with
  | zero =>
    intro x y px py p4 hk hm s
    rw [ellipseRegion1, ellipseTrace1, dif_neg (by omega : ¬ px < py),
      dif_neg (by omega : ¬ px < py)]
    rfl
  | succ n IH =>
    intro x y px py p4 hk hm s
    by_cases hg : px < py
    · obtain ⟨hh2, hw2⟩ := hk.resolve_right (not_le.mpr hg)
      rw [ellipseRegion1, ellipseTrace1, dif_pos hg, dif_pos hg]
      by_cases hp : p4 < 0
      · rw [if_pos hp, if_pos hp, IH]
        · rfl
        · omega
      · rw [if_neg hp, if_neg hp, IH]
        · rfl
        · omega
    · rw [ellipseRegion1, ellipseTrace1, dif_neg hg, dif_neg hg]
      rfl

theorem ellipseRegion1_trace {S : Type} (render : S → Int → Int → Int → Int → S)
    (x0 y0 w2 h2 x y px py p4 : Int) (hk : R1Ok w2 h2 px py) (s : S) :
    ellipseRegion1 render x0 y0 w2 h2 x y px py p4 s hk =
      ((ellipseTrace1 w2 h2 x y px py p4 hk).1.foldl
          (fun t q => render t x0 y0 q.1 q.2) s,
        (ellipseTrace1 w2 h2 x y px py p4 hk).2) :=
  ellipseRegion1_eq render x0 y0 w2 h2 (py - px).toNat x y px py p4 hk (le_refl _) s

theorem ellipseRegion2_eq {S : Type} (render : S → Int → Int → Int → Int → S)
    (x0 y0 w2 h2 : Int) :
    ∀ (n : Nat) (x y px py p4 : Int), y.toNat ≤ n → ∀ (s : S),
      ellipseRegion2 render x0 y0 w2 h2 x y px py p4 s =
        (ellipseTrace2 w2 h2 x y px py p4).foldl
          (fun t q => render t x0 y0 q.1 q.2) s := by
  intro n
  induction n with
  | zero =>
    intro x y px py p4 hm s
    rw [ellipseRegion2, ellipseTrace2, dif_neg (by omega : ¬ 0 < y),
      dif_neg (by omega : ¬ 0 < y)]
    rfl
  | succ n IH =>
    intro x y px py p4 hm s
    by_cases hg : 0 < y
    · rw [ellipseRegion2, ellipseTrace2, dif_pos hg, dif_pos hg]
      by_cases hp : 0 < p4
      · rw [if_pos hp, if_pos hp, IH]
        · rfl
        · omega
      · rw [if_neg hp, if_neg hp, IH]
        · rfl
        · omega
    · rw [ellipseRegion2, ellipseTrace2, dif_neg hg, dif_neg hg]
      rfl

theorem ellipseRegion2_trace {S : Type} (render : S → Int → Int → Int → Int → S)
    (x0 y0 w2 h2 x y px py p4 : Int) (s : S) :
    ellipseRegion2 render x0 y0 w2 h2 x y px py p4 s =
      (ellipseTrace2 w2 h2 x y px py p4).foldl
        (fun t q => render t x0 y0 q.1 q.2) s :=
  ellipseRegion2_eq render x0 y0 w2 h2 y.toNat x y px py p4 (le_refl _) s

theorem draw_ellipse_eq {S : Type} (render : S → Int → Int → Int → Int → S)
    (center : Int × Int) (wr hr : Int) (s : S) :
    draw_ellipse render center wr hr s =
      (ellipseOffsets wr hr).foldl
        (fun t q => render t center.1 center.2 q.1 q.2) s := by
  simp only [draw_ellipse, ellipseOffsets]
  rw [ellipseRegion1_trace, ellipseRegion2_trace, List.foldl_cons, List.foldl_append]

/-! ### Per-routine written-point lists -/

theorem draw_line_pairs_eq {C : Type} (c : C) (img : Canvas C) (x0 y0 a b : Int) :
    draw_line_pairs c img x0 y0 a b = plotAll img c (pairSpanPts x0 y0 (a, b)) := by
  unfold pairSpanPts
  rw [plotAll_append]
  rfl

theorem foldl_quad {C : Type} (c : C) (x0 y0 : Int) :
    ∀ (l : List (Int × Int)) (img : Canvas C),
      l.foldl (fun t q => draw_quad_pixels c t x0 y0 q.1 q.2) img =
        plotAll img c (l.flatMap (quad4 x0 y0)) := by
  intro l
  induction l with
  | nil => intro img; rfl
  | cons q rest ih =>
    intro img
    rw [List.foldl_cons, ih, List.flatMap_cons, plotAll_append]
    rfl

theorem foldl_pairs {C : Type} (c : C) (x0 y0 : Int) :
    ∀ (l : List (Int × Int)) (img : Canvas C),
      l.foldl (fun t q => draw_line_pairs c t x0 y0 q.1 q.2) img =
        plotAll img c (l.flatMap (pairSpanPts x0 y0)) := by
  intro l
  induction l with
  | nil => intro img; rfl
  | cons q rest ih =>
    intro img
    rw [List.foldl_cons, ih, List.flatMap_cons, plotAll_append, draw_line_pairs_eq]

/-- All coordinates `draw_hollow_circle_mut` passes to the bounds-checked write. -/
def hollowCirclePts (x0 y0 r : Int) : List (Int × Int) :=
  (circleStates r 0 0).flatMap (fun s => oct8 x0 y0 s.1 s.2.1)

/-- All span points `draw_filled_circle_mut` passes to the line drawer. -/
def filledCirclePts (x0 y0 r : Int) : List (Int × Int) :=
  (circleStates r 0 0).flatMap (fun s => circleSpanQuad x0 y0 s.1 s.2.1)

/-- All coordinates `draw_hollow_ellipse_mut` passes to the bounds-checked write. -/
def hollowEllipsePts (x0 y0 wr hr : Int) : List (Int × Int) :=
  if wr = hr then hollowCirclePts x0 y0 wr
  else (ellipseOffsets wr hr).flatMap (quad4 x0 y0)

/-- All span points `draw_filled_ellipse_mut` passes to the line drawer. -/
def filledEllipsePts (x0 y0 wr hr : Int) : List (Int × Int) :=
  if wr = hr then filledCirclePts x0 y0 wr
  else (ellipseOffsets wr hr).flatMap (pairSpanPts x0 y0)

theorem draw_hollow_circle_mut_eq {C : Type} (img : Canvas C) (center : Int × Int)
    (r : Int) (c : C) :
    draw_hollow_circle_mut img center r c =
      plotAll img c (hollowCirclePts center.1 center.2 r) :=
  hollowCircleLoop_eq c center.1 center.2 (r - 0 + 1).toNat r 0 0 (le_refl _) img

theorem draw_filled_circle_mut_eq {C : Type} (img : Canvas C) (center : Int × Int)
    (r : Int) (c : C) :
    draw_filled_circle_mut img center r c =
      plotAll img c (filledCirclePts center.1 center.2 r) :=
  filledCircleLoop_eq c center.1 center.2 (r - 0 + 1).toNat r 0 0 (le_refl _) img

theorem draw_hollow_ellipse_mut_eq {C : Type} (img : Canvas C) (center : Int × Int)
    (wr hr : Int) (c : C) :
    draw_hollow_ellipse_mut img center wr hr c =
      plotAll img c (hollowEllipsePts center.1 center.2 wr hr) := by
  unfold draw_hollow_ellipse_mut hollowEllipsePts
  by_cases h : wr = hr
  · rw [if_pos h, if_pos h, draw_hollow_circle_mut_eq]
  · rw [if_neg h, if_neg h, draw_ellipse_eq, foldl_quad]

theorem draw_filled_ellipse_mut_eq {C : Type} (img : Canvas C) (center : Int × Int)
    (wr hr : Int) (c : C) :
    draw_filled_ellipse_mut img center wr hr c =
      plotAll img c (filledEllipsePts center.1 center.2 wr hr) := by
  unfold draw_filled_ellipse_mut filledEllipsePts
  by_cases h : wr = hr
  · rw [if_pos h, if_pos h, draw_filled_circle_mut_eq]
  · rw [if_neg h, if_neg h, draw_ellipse_eq, foldl_pairs]

/-- One loop step takes the termination measure down by at least one. -/
theorem toNat_step (D D' : Int) (n : Nat) (h1 : D.toNat ≤ n + 1) (h2 : D' ≤ D - 1) :
    D'.toNat ≤ n := by omega

/-! ### Bounding boxes of the written coordinates -/

/-- The closed axis-aligned bounding box of a shape centered at `(x0, y0)`. -/
def InCenteredBox (x0 y0 wR hR : Int) (p : Int × Int) : Prop :=
  x0 - wR ≤ p.1 ∧ p.1 ≤ x0 + wR ∧ y0 - hR ≤ p.2 ∧ p.2 ≤ y0 + hR

theorem hollowCirclePts_bbox (x0 y0 r : Int) (hr0 : 0 ≤ r) :
    ∀ p ∈ hollowCirclePts x0 y0 r, InCenteredBox x0 y0 r r p := by
  intro p hp
  unfold hollowCirclePts at hp
  rw [List.mem_flatMap] at hp
  obtain ⟨s, hs, hps⟩ := hp
  obtain ⟨hx, hy, hyx⟩ := circleStates_le (r - 0 + 1).toNat r 0 0 (le_refl _) s hs
  obtain ⟨u, v⟩ := p
  simp only [oct8, List.mem_cons, List.not_mem_nil, or_false, Prod.mk.injEq] at hps
  unfold InCenteredBox
  rcases hps with ⟨h1, h2⟩ | ⟨h1, h2⟩ | ⟨h1, h2⟩ | ⟨h1, h2⟩ | ⟨h1, h2⟩ | ⟨h1, h2⟩ |
    ⟨h1, h2⟩ | ⟨h1, h2⟩ <;> omega

theorem filledCirclePts_bbox (x0 y0 r : Int) (hr0 : 0 ≤ r) :
    ∀ p ∈ filledCirclePts x0 y0 r, InCenteredBox x0 y0 r r p := by
  intro p hp
  unfold filledCirclePts at hp
  rw [List.mem_flatMap] at hp
  obtain ⟨s, hs, hps⟩ := hp
  obtain ⟨hx, hy, hyx⟩ := circleStates_le (r - 0 + 1).toNat r 0 0 (le_refl _) s hs
  obtain ⟨u, v⟩ := p
  unfold circleSpanQuad at hps
  unfold InCenteredBox
  rcases List.mem_append.mp hps with hps' | hps4
  rcases List.mem_append.mp hps' with hps'' | hps3
  rcases List.mem_append.mp hps'' with hps1 | hps2
  · obtain ⟨he, hlo, hhi⟩ := mem_spanPts.mp hps1
    rw [min_eq_left (by omega), max_eq_right (by omega)] at *
    omega
  · obtain ⟨he, hlo, hhi⟩ := mem_spanPts.mp hps2
    rw [min_eq_left (by omega), max_eq_right (by omega)] at *
    omega
  · obtain ⟨he, hlo, hhi⟩ := mem_spanPts.mp hps3
    rw [min_eq_left (by omega), max_eq_right (by omega)] at *
    omega
  · obtain ⟨he, hlo, hhi⟩ := mem_spanPts.mp hps4
    rw [min_eq_left (by omega), max_eq_right (by omega)] at *
    omega

/-! ### The ellipse algorithm as the spec words it, and its equivalence -/

/-- Termination help for the spec-side region-one machine, mirroring `R1Ok`. -/
def R1OkS (w2 h2 x y : Int) : Prop :=
  (0 < h2 ∧ 0 ≤ w2) ∨ 2 * w2 * y ≤ 2 * h2 * x

theorem toNat_dec1 (a b c : Int) (hc : 0 < c) (hab : a < b) :
    (b - (a + c)).toNat < (b - a).toNat := by omega

theorem toNat_dec2 (a b c d : Int) (hc : 0 < c) (hd : 0 ≤ d) (hab : a < b) :
    ((b - d) - (a + c)).toNat < (b - a).toNat := by omega

/-- Region one exactly as the claim states it, with the decision variable
living in binary32 like the source's `f32`: while `px < py` where `px = 2*h2*x`
and `py = 2*w2*y` are the stated functions of the position, increment `x`; if
`p < 0` then `p += h2 + px`, else decrement `y` and `p += h2 + px - py`, each
update rounding through `i2f` and `fadd`; the new point is rendered after every
step.  Returns the rendered offsets and the final position. -/
def specRegion1 (w2 h2 x y p4 : Int) (hk : R1OkS w2 h2 x y) :
    List (Int × Int) × Int × Int :=
  if hg : 2 * h2 * x < 2 * w2 * y then
    if p4 < 0 then
      let r := specRegion1 w2 h2 (x + 1) y (fadd p4 (i2f (h2 + 2 * h2 * (x + 1))))
        (Or.inl (hk.resolve_right (not_le.mpr hg)))
      ((x + 1, y) :: r.1, r.2)
    else
      let r := specRegion1 w2 h2 (x + 1) (y - 1)
        (fadd p4 (i2f (h2 + 2 * h2 * (x + 1) - 2 * w2 * (y - 1))))
        (Or.inl (hk.resolve_right (not_le.mpr hg)))
      ((x + 1, y - 1) :: r.1, r.2)
  else
    ([], x, y)
termination_by (2 * w2 * y - 2 * h2 * x).toNat
decreasing_by
  · obtain ⟨h1, h2'⟩ := hk.resolve_right (not_le.mpr hg)
    have e : 2 * h2 * (x + 1) = 2 * h2 * x + 2 * h2 := by ring
    rw [e]
    exact toNat_dec1 _ _ _ (by linarith) hg
  · obtain ⟨h1, h2'⟩ := hk.resolve_right (not_le.mpr hg)
    have e : 2 * h2 * (x + 1) = 2 * h2 * x + 2 * h2 := by ring
    have e2 : 2 * w2 * (y - 1) = 2 * w2 * y - 2 * w2 := by ring
    rw [e, e2]
    exact toNat_dec2 _ _ _ _ (by linarith) (by linarith) hg

/-- Region two exactly as the claim states it, the decision variable again in
binary32: recompute `p`, then while `0 < y` decrement `y`; if `p > 0` then
`p += w2 - py`, else increment `x` and `p += w2 - py + px`, with `px`, `py` the
stated functions of the position. -/
def specRegion2 (w2 h2 x y p4 : Int) : List (Int × Int) :=
  if hg : 0 < y then
    if 0 < p4 then
      (x, y - 1) :: specRegion2 w2 h2 x (y - 1) (fadd p4 (i2f (w2 - 2 * w2 * (y - 1))))
    else
      (x + 1, y - 1) :: specRegion2 w2 h2 (x + 1) (y - 1)
        (fadd p4 (i2f (w2 - 2 * w2 * (y - 1) + 2 * h2 * (x + 1))))
  else
    []
termination_by y.toNat
decreasing_by all_goals omega

theorem r1OkS_start (wr hr : Int) : R1OkS (wr * wr) (hr * hr) 0 hr := by
  rcases eq_or_ne hr 0 with h | h
  · exact Or.inr (by simp [h])
  · exact Or.inl ⟨mul_self_pos.mpr h, mul_self_nonneg wr⟩

/-- The full offset sequence of the midpoint ellipse algorithm exactly as the
spec states it, with the decision variable in binary32: the initial point
`(0, height_radius)`, region one starting from `x = 0`, `y = height_radius`
with `p = (h2 - w2*hr) as f32 + 0.25 * (w2 as f32)`, then region two with `p`
recomputed as
`(h2 as f32) * (x as f32 + 0.5)^2 + (w2*(y-1)^2) as f32 - (w2*h2) as f32`,
quarter-scaled throughout. -/
def specEllipseOffsets (wr hr : Int) : List (Int × Int) :=
  let r1 := specRegion1 (wr * wr) (hr * hr) 0 hr
    (fadd (i2f ((hr * hr) - (wr * wr) * hr)) (fmul 1 (i2f (wr * wr))))
    (r1OkS_start wr hr)
  (0, hr) :: (r1.1 ++ specRegion2 (wr * wr) (hr * hr) r1.2.1 r1.2.2
    (fsub (fadd (fmul (i2f (hr * hr)) (fmul (fadd (i2f r1.2.1) 2) (fadd (i2f r1.2.1) 2)))
      (i2f ((wr * wr) * (r1.2.2 - 1) ^ 2))) (i2f ((wr * wr) * (hr * hr)))))

theorem trace1_eq_spec (w2 h2 : Int) :
    ∀ (n : Nat) (x y px py p4t p4s : Int) (hk : R1Ok w2 h2 px py)
      (hk' : R1OkS w2 h2 x y),
      (py - px).toNat ≤ n → px = 2 * h2 * x → py = 2 * w2 * y → p4t = p4s →
      (ellipseTrace1 w2 h2 x y px py p4t hk).1 = (specRegion1 w2 h2 x y p4s hk').1 ∧
      (ellipseTrace1 w2 h2 x y px py p4t hk).2.1 = (specRegion1 w2 h2 x y p4s hk').2.1 ∧
      (ellipseTrace1 w2 h2 x y px py p4t hk).2.2.1 = (specRegion1 w2 h2 x y p4s hk').2.2 ∧
      (ellipseTrace1 w2 h2 x y px py p4t hk).2.2.2.1 =
        2 * h2 * (specRegion1 w2 h2 x y p4s hk').2.1 ∧
      (ellipseTrace1 w2 h2 x y px py p4t hk).2.2.2.2 =
        2 * w2 * (specRegion1 w2 h2 x y p4s hk').2.2 := by
  intro n
  induction n with
  | zero =>
    intro x y px py p4t p4s hk hk' hm hpx hpy hps
    rw [ellipseTrace1, specRegion1, dif_neg (by omega : ¬ px < py),
      dif_neg (show ¬ 2 * h2 * x < 2 * w2 * y by rw [← hpx, ← hpy]; omega)]
    exact ⟨rfl, rfl, rfl, hpx, hpy⟩
  | succ n IH =>
    intro x y px py p4t p4s hk hk' hm hpx hpy hps
    subst hpx
    subst hpy
    subst hps
    by_cases hg : 2 * h2 * x < 2 * w2 * y
    · obtain ⟨hh2pos, hw2nn⟩ := hk.resolve_right (not_le.mpr hg)
      rw [ellipseTrace1, specRegion1]
      by_cases hp : p4t < 0
      · simp only [dif_pos hg, if_pos hp]
        have IH' := IH (x + 1) y (2 * h2 * x + 2 * h2) (2 * w2 * y)
          (fadd p4t (i2f (h2 + (2 * h2 * x + 2 * h2))))
          (fadd p4t (i2f (h2 + 2 * h2 * (x + 1))))
          (Or.inl ⟨hh2pos, hw2nn⟩) (Or.inl ⟨hh2pos, hw2nn⟩)
          (toNat_step _ _ _ hm (by linarith)) (by ring) rfl
          (by rw [show h2 + (2 * h2 * x + 2 * h2) = h2 + 2 * h2 * (x + 1) from by ring])
        exact ⟨by rw [IH'.1], IH'.2.1, IH'.2.2.1, IH'.2.2.2.1, IH'.2.2.2.2⟩
      · simp only [dif_pos hg, if_neg hp]
        have IH' := IH (x + 1) (y - 1) (2 * h2 * x + 2 * h2)
          (2 * w2 * y - 2 * w2)
          (fadd p4t (i2f (h2 + (2 * h2 * x + 2 * h2) - (2 * w2 * y - 2 * w2))))
          (fadd p4t (i2f (h2 + 2 * h2 * (x + 1) - 2 * w2 * (y - 1))))
          (Or.inl ⟨hh2pos, hw2nn⟩) (Or.inl ⟨hh2pos, hw2nn⟩)
          (toNat_step _ _ _ hm (by linarith)) (by ring) (by ring)
          (by rw [show h2 + (2 * h2 * x + 2 * h2) - (2 * w2 * y - 2 * w2)
              = h2 + 2 * h2 * (x + 1) - 2 * w2 * (y - 1) from by ring])
        exact ⟨by rw [IH'.1], IH'.2.1, IH'.2.2.1, IH'.2.2.2.1, IH'.2.2.2.2⟩
    · rw [ellipseTrace1, specRegion1, dif_neg (by omega : ¬ 2 * h2 * x < 2 * w2 * y),
        dif_neg hg]
      exact ⟨rfl, rfl, rfl, rfl, rfl⟩

theorem trace2_eq_spec (w2 h2 : Int) :
    ∀ (n : Nat) (x y px py p4t p4s : Int),
      y.toNat ≤ n → px = 2 * h2 * x → py = 2 * w2 * y → p4t = p4s →
      ellipseTrace2 w2 h2 x y px py p4t = specRegion2 w2 h2 x y p4s := by
  intro n
  induction n with
  | zero =>
    intro x y px py p4t p4s hm hpx hpy hps
    rw [ellipseTrace2, specRegion2, dif_neg (by omega : ¬ 0 < y),
      dif_neg (by omega : ¬ 0 < y)]
  | succ n IH =>
    intro x y px py p4t p4s hm hpx hpy hps
    subst hpx
    subst hpy
    subst hps
    by_cases hg : 0 < y
    · rw [ellipseTrace2, specRegion2]
      by_cases hp : 0 < p4t
      · simp only [dif_pos hg, if_pos hp]
        rw [IH x (y - 1) (2 * h2 * x) (2 * w2 * y - 2 * w2)
          (fadd p4t (i2f (w2 - (2 * w2 * y - 2 * w2))))
          (fadd p4t (i2f (w2 - 2 * w2 * (y - 1))))
          (by omega) rfl (by ring)
          (by rw [show w2 - (2 * w2 * y - 2 * w2) = w2 - 2 * w2 * (y - 1) from by ring])]
      · simp only [dif_pos hg, if_neg hp]
        rw [IH (x + 1) (y - 1) (2 * h2 * x + 2 * h2) (2 * w2 * y - 2 * w2)
          (fadd p4t (i2f (w2 - (2 * w2 * y - 2 * w2) + (2 * h2 * x + 2 * h2))))
          (fadd p4t (i2f (w2 - 2 * w2 * (y - 1) + 2 * h2 * (x + 1))))
          (by omega) (by ring) (by ring)
          (by rw [show w2 - (2 * w2 * y - 2 * w2) + (2 * h2 * x + 2 * h2)
              = w2 - 2 * w2 * (y - 1) + 2 * h2 * (x + 1) from by ring])]
    · rw [ellipseTrace2, specRegion2, dif_neg hg, dif_neg hg]

theorem ellipseOffsets_eq_spec (wr hr : Int) :
    ellipseOffsets wr hr = specEllipseOffsets wr hr := by
  simp only [ellipseOffsets, specEllipseOffsets]
  obtain ⟨e1, e2, e3, e4, e5⟩ := trace1_eq_spec (wr * wr) (hr * hr)
    (2 * (wr * wr) * hr - 0).toNat 0 hr 0 (2 * (wr * wr) * hr)
    (fadd (i2f ((hr * hr) - (wr * wr) * hr)) (fmul 1 (i2f (wr * wr))))
    (fadd (i2f ((hr * hr) - (wr * wr) * hr)) (fmul 1 (i2f (wr * wr))))
    (r1Ok_start wr hr) (r1OkS_start wr hr)
    (le_refl _) (by ring) rfl rfl
  have e4' := e4
  rw [← e2] at e4'
  have e5' := e5
  rw [← e3] at e5'
  rw [e1, trace2_eq_spec (wr * wr) (hr * hr)
    ((ellipseTrace1 (wr * wr) (hr * hr) 0 hr 0 (2 * (wr * wr) * hr)
      (fadd (i2f ((hr * hr) - (wr * wr) * hr)) (fmul 1 (i2f (wr * wr))))
      (r1Ok_start wr hr)).2.2.1).toNat
    _ _ _ _ _ _ (le_refl _) e4' e5' rfl, e2, e3]

/-! ### The spec machine under exact arithmetic, and executable evaluators

The spec words the decision-variable recurrences as plain arithmetic on
quarter-valued numbers; read with exact (infinitely precise) arithmetic they
define the machine below, `p` being carried as the exact integer `4*p`.  The
source program computes `p` in `f32`, which rounds once magnitudes pass `2^24`
quarters, so the program and the exact reading diverge for some radii.  The
fuel-indexed twins make both machines evaluable by the kernel, so a concrete
diverging radius pair can be exhibited. -/

/-- Region one of the spec machine under exact arithmetic (`p` scaled by 4). -/
def specRegion1Exact (w2 h2 x y p4 : Int) (hk : R1OkS w2 h2 x y) :
    List (Int × Int) × Int × Int :=
  if hg : 2 * h2 * x < 2 * w2 * y then
    if p4 < 0 then
      let r := specRegion1Exact w2 h2 (x + 1) y (p4 + 4 * (h2 + 2 * h2 * (x + 1)))
        (Or.inl (hk.resolve_right (not_le.mpr hg)))
      ((x + 1, y) :: r.1, r.2)
    else
      let r := specRegion1Exact w2 h2 (x + 1) (y - 1)
        (p4 + 4 * (h2 + 2 * h2 * (x + 1) - 2 * w2 * (y - 1)))
        (Or.inl (hk.resolve_right (not_le.mpr hg)))
      ((x + 1, y - 1) :: r.1, r.2)
  else
    ([], x, y)
termination_by (2 * w2 * y - 2 * h2 * x).toNat
decreasing_by
  · obtain ⟨h1, h2'⟩ := hk.resolve_right (not_le.mpr hg)
    have e : 2 * h2 * (x + 1) = 2 * h2 * x + 2 * h2 := by ring
    rw [e]
    exact toNat_dec1 _ _ _ (by linarith) hg
  · obtain ⟨h1, h2'⟩ := hk.resolve_right (not_le.mpr hg)
    have e : 2 * h2 * (x + 1) = 2 * h2 * x + 2 * h2 := by ring
    have e2 : 2 * w2 * (y - 1) = 2 * w2 * y - 2 * w2 := by ring
    rw [e, e2]
    exact toNat_dec2 _ _ _ _ (by linarith) (by linarith) hg

/-- Region two of the spec machine under exact arithmetic. -/
def specRegion2Exact (w2 h2 x y p4 : Int) : List (Int × Int) :=
  if hg : 0 < y then
    if 0 < p4 then
      (x, y - 1) :: specRegion2Exact w2 h2 x (y - 1) (p4 + 4 * (w2 - 2 * w2 * (y - 1)))
    else
      (x + 1, y - 1) :: specRegion2Exact w2 h2 (x + 1) (y - 1)
        (p4 + 4 * (w2 - 2 * w2 * (y - 1) + 2 * h2 * (x + 1)))
  else
    []
termination_by y.toNat
decreasing_by all_goals omega

/-- The spec's offset sequence under exact arithmetic: the initial point,
region one with `4*p = 4*(h2 - w2*hr) + w2`, then region two with `p`
recomputed exactly as `h2*(x+1/2)^2 + w2*(y-1)^2 - w2*h2` (scaled by four). -/
def specEllipseOffsetsExact (wr hr : Int) : List (Int × Int) :=
  let r1 := specRegion1Exact (wr * wr) (hr * hr) 0 hr
    (4 * ((hr * hr) - (wr * wr) * hr) + (wr * wr)) (r1OkS_start wr hr)
  (0, hr) :: (r1.1 ++ specRegion2Exact (wr * wr) (hr * hr) r1.2.1 r1.2.2
    ((hr * hr) * (2 * r1.2.1 + 1) ^ 2 + 4 * (wr * wr) * (r1.2.2 - 1) ^ 2 -
      4 * (wr * wr) * (hr * hr)))

/-- Fuel-indexed twin of `ellipseTrace1`, structurally recursive so the kernel
can evaluate it; `ellipseTrace1_eval` shows that any fuel at least the
termination measure reproduces the trace. -/
def trace1Eval : Nat → Int → Int → Int → Int → Int → Int → Int →
    List (Int × Int) × Int × Int × Int × Int
  | 0, _, _, x, y, px, py, _ => ([], x, y, px, py)
  | f + 1, w2, h2, x, y, px, py, p4 =>
    if px < py then
      if p4 < 0 then
        let r := trace1Eval f w2 h2 (x + 1) y (px + 2 * h2) py
          (fadd p4 (i2f (h2 + (px + 2 * h2))))
        ((x + 1, y) :: r.1, r.2)
      else
        let r := trace1Eval f w2 h2 (x + 1) (y - 1) (px + 2 * h2) (py - 2 * w2)
          (fadd p4 (i2f (h2 + (px + 2 * h2) - (py - 2 * w2))))
        ((x + 1, y - 1) :: r.1, r.2)
    else ([], x, y, px, py)

/-- Fuel-indexed twin of `ellipseTrace2`. -/
def trace2Eval : Nat → Int → Int → Int → Int → Int → Int → Int → List (Int × Int)
  | 0, _, _, _, _, _, _, _ => []
  | f + 1, w2, h2, x, y, px, py, p4 =>
    if 0 < y then
      if 0 < p4 then
        (x, y - 1) :: trace2Eval f w2 h2 x (y - 1) px (py - 2 * w2)
          (fadd p4 (i2f (w2 - (py - 2 * w2))))
      else
        (x + 1, y - 1) :: trace2Eval f w2 h2 (x + 1) (y - 1) (px + 2 * h2)
          (py - 2 * w2) (fadd p4 (i2f (w2 - (py - 2 * w2) + (px + 2 * h2))))
    else []

theorem ellipseTrace1_eval (w2 h2 : Int) :
    ∀ (n : Nat) (x y px py p4 : Int) (hk : R1Ok w2 h2 px py),
      (py - px).toNat ≤ n →
      ellipseTrace1 w2 h2 x y px py p4 hk = trace1Eval n w2 h2 x y px py p4 := by
  intro n
  induction n with
  | zero =>
    intro x y px py p4 hk hm
    rw [ellipseTrace1, dif_neg (by omega : ¬ px < py)]
    simp only [trace1Eval]
  | succ n IH =>
    intro x y px py p4 hk hm
    by_cases hg : px < py
    · obtain ⟨hh2, hw2⟩ := hk.resolve_right (not_le.mpr hg)
      rw [ellipseTrace1, dif_pos hg]
      simp only [trace1Eval, if_pos hg]
      by_cases hp : p4 < 0
      · rw [if_pos hp, if_pos hp, IH]
        omega
      · rw [if_neg hp, if_neg hp, IH]
        omega
    · rw [ellipseTrace1, dif_neg hg]
      simp only [trace1Eval, if_neg hg]

theorem ellipseTrace2_eval (w2 h2 : Int) :
    ∀ (n : Nat) (x y px py p4 : Int), y.toNat ≤ n →
      ellipseTrace2 w2 h2 x y px py p4 = trace2Eval n w2 h2 x y px py p4 := by
  intro n
  induction n with
  | zero =>
    intro x y px py p4 hm
    rw [ellipseTrace2, dif_neg (by omega : ¬ 0 < y)]
    simp only [trace2Eval]
  | succ n IH =>
    intro x y px py p4 hm
    by_cases hg : 0 < y
    · rw [ellipseTrace2, dif_pos hg]
      simp only [trace2Eval, if_pos hg]
      by_cases hp : 0 < p4
      · rw [if_pos hp, if_pos hp, IH]
        omega
      · rw [if_neg hp, if_neg hp, IH]
        omega
    · rw [ellipseTrace2, dif_neg hg]
      simp only [trace2Eval, if_neg hg]

/-- The source stepper's offset list in kernel-evaluable form. -/
theorem ellipseOffsets_eval (wr hr : Int) :
    ellipseOffsets wr hr =
      (let w2 := wr * wr
       let h2 := hr * hr
       let r1 := trace1Eval (2 * w2 * hr).toNat w2 h2 0 hr 0 (2 * w2 * hr)
         (fadd (i2f (h2 - w2 * hr)) (fmul 1 (i2f w2)))
       (0, hr) ::
         (r1.1 ++ trace2Eval r1.2.2.1.toNat w2 h2 r1.2.1 r1.2.2.1 r1.2.2.2.1
           r1.2.2.2.2
           (fsub (fadd (fmul (i2f h2) (fmul (fadd (i2f r1.2.1) 2) (fadd (i2f r1.2.1) 2)))
             (i2f (w2 * (r1.2.2.1 - 1) ^ 2))) (i2f (w2 * h2))))) := by
  simp only [ellipseOffsets]
  rw [ellipseTrace1_eval (wr * wr) (hr * hr) (2 * (wr * wr) * hr).toNat 0 hr 0
    (2 * (wr * wr) * hr) _ (r1Ok_start wr hr) (by omega),
    ellipseTrace2_eval (wr * wr) (hr * hr) _ _ _ _ _ _ (le_refl _)]

/-- Fuel-indexed twin of `specRegion1Exact`. -/
def spec1ExactEval : Nat → Int → Int → Int → Int → Int →
    List (Int × Int) × Int × Int
  | 0, _, _, x, y, _ => ([], x, y)
  | f + 1, w2, h2, x, y, p4 =>
    if 2 * h2 * x < 2 * w2 * y then
      if p4 < 0 then
        let r := spec1ExactEval f w2 h2 (x + 1) y (p4 + 4 * (h2 + 2 * h2 * (x + 1)))
        ((x + 1, y) :: r.1, r.2)
      else
        let r := spec1ExactEval f w2 h2 (x + 1) (y - 1)
          (p4 + 4 * (h2 + 2 * h2 * (x + 1) - 2 * w2 * (y - 1)))
        ((x + 1, y - 1) :: r.1, r.2)
    else ([], x, y)

/-- Fuel-indexed twin of `specRegion2Exact`. -/
def spec2ExactEval : Nat → Int → Int → Int → Int → Int → List (Int × Int)
  | 0, _, _, _, _, _ => []
  | f + 1, w2, h2, x, y, p4 =>
    if 0 < y then
      if 0 < p4 then
        (x, y - 1) :: spec2ExactEval f w2 h2 x (y - 1)
          (p4 + 4 * (w2 - 2 * w2 * (y - 1)))
      else
        (x + 1, y - 1) :: spec2ExactEval f w2 h2 (x + 1) (y - 1)
          (p4 + 4 * (w2 - 2 * w2 * (y - 1) + 2 * h2 * (x + 1)))
    else []

theorem specRegion1Exact_eval (w2 h2 : Int) :
    ∀ (n : Nat) (x y p4 : Int) (hk : R1OkS w2 h2 x y),
      (2 * w2 * y - 2 * h2 * x).toNat ≤ n →
      specRegion1Exact w2 h2 x y p4 hk = spec1ExactEval n w2 h2 x y p4 := by
  intro n
  induction n with
  | zero =>
    intro x y p4 hk hm
    rw [specRegion1Exact, dif_neg (by omega : ¬ 2 * h2 * x < 2 * w2 * y)]
    simp only [spec1ExactEval]
  | succ n IH =>
    intro x y p4 hk hm
    by_cases hg : 2 * h2 * x < 2 * w2 * y
    · obtain ⟨hh2, hw2⟩ := hk.resolve_right (not_le.mpr hg)
      have e : 2 * h2 * (x + 1) = 2 * h2 * x + 2 * h2 := by ring
      have e2 : 2 * w2 * (y - 1) = 2 * w2 * y - 2 * w2 := by ring
      rw [specRegion1Exact, dif_pos hg]
      simp only [spec1ExactEval, if_pos hg]
      by_cases hp : p4 < 0
      · rw [if_pos hp, if_pos hp, IH]
        rw [e]
        omega
      · rw [if_neg hp, if_neg hp, IH]
        rw [e, e2]
        omega
    · rw [specRegion1Exact, dif_neg hg]
      simp only [spec1ExactEval, if_neg hg]

theorem specRegion2Exact_eval (w2 h2 : Int) :
    ∀ (n : Nat) (x y p4 : Int), y.toNat ≤ n →
      specRegion2Exact w2 h2 x y p4 = spec2ExactEval n w2 h2 x y p4 := by
  intro n
  induction n with
  | zero =>
    intro x y p4 hm
    rw [specRegion2Exact, dif_neg (by omega : ¬ 0 < y)]
    simp only [spec2ExactEval]
  | succ n IH =>
    intro x y p4 hm
    by_cases hg : 0 < y
    · rw [specRegion2Exact, dif_pos hg]
      simp only [spec2ExactEval, if_pos hg]
      by_cases hp : 0 < p4
      · rw [if_pos hp, if_pos hp, IH]
        omega
      · rw [if_neg hp, if_neg hp, IH]
        omega
    · rw [specRegion2Exact, dif_neg hg]
      simp only [spec2ExactEval, if_neg hg]

/-- The exact spec machine's offset list in kernel-evaluable form. -/
theorem specEllipseOffsetsExact_eval (wr hr : Int) :
    specEllipseOffsetsExact wr hr =
      (let r1 := spec1ExactEval (2 * (wr * wr) * hr).toNat (wr * wr) (hr * hr) 0 hr
         (4 * ((hr * hr) - (wr * wr) * hr) + (wr * wr))
       (0, hr) :: (r1.1 ++ spec2ExactEval r1.2.2.toNat (wr * wr) (hr * hr) r1.2.1
         r1.2.2 ((hr * hr) * (2 * r1.2.1 + 1) ^ 2 + 4 * (wr * wr) * (r1.2.2 - 1) ^ 2 -
           4 * (wr * wr) * (hr * hr)))) := by
  simp only [specEllipseOffsetsExact]
  rw [specRegion1Exact_eval (wr * wr) (hr * hr) (2 * (wr * wr) * hr).toNat 0 hr _
    (r1OkS_start wr hr) (by simp),
    specRegion2Exact_eval (wr * wr) (hr * hr) _ _ _ _ (le_refl _)]

/-! ### Symmetry of the hollow written-coordinate lists -/

theorem oct8_symm_x (x0 y0 a b dx dy : Int) :
    (x0 + dx, y0 + dy) ∈ oct8 x0 y0 a b ↔ (x0 - dx, y0 + dy) ∈ oct8 x0 y0 a b := by
  simp only [oct8, List.mem_cons, List.not_mem_nil, or_false, Prod.mk.injEq]
  constructor
  · rintro (⟨h1, h2⟩ | ⟨h1, h2⟩ | ⟨h1, h2⟩ | ⟨h1, h2⟩ | ⟨h1, h2⟩ | ⟨h1, h2⟩ | ⟨h1, h2⟩ | ⟨h1, h2⟩)
    · exact Or.inr (Or.inr (Or.inr (Or.inl ⟨by omega, by omega⟩)))
    · exact Or.inr (Or.inr (Or.inl ⟨by omega, by omega⟩))
    · exact Or.inr (Or.inl ⟨by omega, by omega⟩)
    · exact Or.inl ⟨by omega, by omega⟩
    · exact Or.inr (Or.inr (Or.inr (Or.inr (Or.inr (Or.inr (Or.inr (⟨by omega, by omega⟩)))))))
    · exact Or.inr (Or.inr (Or.inr (Or.inr (Or.inr (Or.inr (Or.inl ⟨by omega, by omega⟩))))))
    · exact Or.inr (Or.inr (Or.inr (Or.inr (Or.inr (Or.inl ⟨by omega, by omega⟩)))))
    · exact Or.inr (Or.inr (Or.inr (Or.inr (Or.inl ⟨by omega, by omega⟩))))
  · rintro (⟨h1, h2⟩ | ⟨h1, h2⟩ | ⟨h1, h2⟩ | ⟨h1, h2⟩ | ⟨h1, h2⟩ | ⟨h1, h2⟩ | ⟨h1, h2⟩ | ⟨h1, h2⟩)
    · exact Or.inr (Or.inr (Or.inr (Or.inl ⟨by omega, by omega⟩)))
    · exact Or.inr (Or.inr (Or.inl ⟨by omega, by omega⟩))
    · exact Or.inr (Or.inl ⟨by omega, by omega⟩)
    · exact Or.inl ⟨by omega, by omega⟩
    · exact Or.inr (Or.inr (Or.inr (Or.inr (Or.inr (Or.inr (Or.inr (⟨by omega, by omega⟩)))))))
    · exact Or.inr (Or.inr (Or.inr (Or.inr (Or.inr (Or.inr (Or.inl ⟨by omega, by omega⟩))))))
    · exact Or.inr (Or.inr (Or.inr (Or.inr (Or.inr (Or.inl ⟨by omega, by omega⟩)))))
    · exact Or.inr (Or.inr (Or.inr (Or.inr (Or.inl ⟨by omega, by omega⟩))))

theorem oct8_symm_y (x0 y0 a b dx dy : Int) :
    (x0 + dx, y0 + dy) ∈ oct8 x0 y0 a b ↔ (x0 + dx, y0 - dy) ∈ oct8 x0 y0 a b := by
  simp only [oct8, List.mem_cons, List.not_mem_nil, or_false, Prod.mk.injEq]
  constructor
  · rintro (⟨h1, h2⟩ | ⟨h1, h2⟩ | ⟨h1, h2⟩ | ⟨h1, h2⟩ | ⟨h1, h2⟩ | ⟨h1, h2⟩ | ⟨h1, h2⟩ | ⟨h1, h2⟩)
    · exact Or.inr (Or.inr (Or.inr (Or.inr (Or.inr (Or.inr (Or.inr (⟨by omega, by omega⟩)))))))
    · exact Or.inr (Or.inr (Or.inr (Or.inr (Or.inr (Or.inr (Or.inl ⟨by omega, by omega⟩))))))
    · exact Or.inr (Or.inr (Or.inr (Or.inr (Or.inr (Or.inl ⟨by omega, by omega⟩)))))
    · exact Or.inr (Or.inr (Or.inr (Or.inr (Or.inl ⟨by omega, by omega⟩))))
    · exact Or.inr (Or.inr (Or.inr (Or.inl ⟨by omega, by omega⟩)))
    · exact Or.inr (Or.inr (Or.inl ⟨by omega, by omega⟩))
    · exact Or.inr (Or.inl ⟨by omega, by omega⟩)
    · exact Or.inl ⟨by omega, by omega⟩
  · rintro (⟨h1, h2⟩ | ⟨h1, h2⟩ | ⟨h1, h2⟩ | ⟨h1, h2⟩ | ⟨h1, h2⟩ | ⟨h1, h2⟩ | ⟨h1, h2⟩ | ⟨h1, h2⟩)
    · exact Or.inr (Or.inr (Or.inr (Or.inr (Or.inr (Or.inr (Or.inr (⟨by omega, by omega⟩)))))))
    · exact Or.inr (Or.inr (Or.inr (Or.inr (Or.inr (Or.inr (Or.inl ⟨by omega, by omega⟩))))))
    · exact Or.inr (Or.inr (Or.inr (Or.inr (Or.inr (Or.inl ⟨by omega, by omega⟩)))))
    · exact Or.inr (Or.inr (Or.inr (Or.inr (Or.inl ⟨by omega, by omega⟩))))
    · exact Or.inr (Or.inr (Or.inr (Or.inl ⟨by omega, by omega⟩)))
    · exact Or.inr (Or.inr (Or.inl ⟨by omega, by omega⟩))
    · exact Or.inr (Or.inl ⟨by omega, by omega⟩)
    · exact Or.inl ⟨by omega, by omega⟩

theorem quad4_symm_x (x0 y0 dx dy : Int) (q : Int × Int) :
    (x0 + dx, y0 + dy) ∈ quad4 x0 y0 q ↔ (x0 - dx, y0 + dy) ∈ quad4 x0 y0 q := by
  simp only [quad4, List.mem_cons, List.not_mem_nil, or_false, Prod.mk.injEq]
  constructor
  · rintro (⟨h1, h2⟩ | ⟨h1, h2⟩ | ⟨h1, h2⟩ | ⟨h1, h2⟩)
    · exact Or.inr (Or.inl ⟨by omega, by omega⟩)
    · exact Or.inl ⟨by omega, by omega⟩
    · exact Or.inr (Or.inr (Or.inr (⟨by omega, by omega⟩)))
    · exact Or.inr (Or.inr (Or.inl ⟨by omega, by omega⟩))
  · rintro (⟨h1, h2⟩ | ⟨h1, h2⟩ | ⟨h1, h2⟩ | ⟨h1, h2⟩)
    · exact Or.inr (Or.inl ⟨by omega, by omega⟩)
    · exact Or.inl ⟨by omega, by omega⟩
    · exact Or.inr (Or.inr (Or.inr (⟨by omega, by omega⟩)))
    · exact Or.inr (Or.inr (Or.inl ⟨by omega, by omega⟩))

theorem quad4_symm_y (x0 y0 dx dy : Int) (q : Int × Int) :
    (x0 + dx, y0 + dy) ∈ quad4 x0 y0 q ↔ (x0 + dx, y0 - dy) ∈ quad4 x0 y0 q := by
  simp only [quad4, List.mem_cons, List.not_mem_nil, or_false, Prod.mk.injEq]
  constructor
  · rintro (⟨h1, h2⟩ | ⟨h1, h2⟩ | ⟨h1, h2⟩ | ⟨h1, h2⟩)
    · exact Or.inr (Or.inr (Or.inl ⟨by omega, by omega⟩))
    · exact Or.inr (Or.inr (Or.inr (⟨by omega, by omega⟩)))
    · exact Or.inl ⟨by omega, by omega⟩
    · exact Or.inr (Or.inl ⟨by omega, by omega⟩)
  · rintro (⟨h1, h2⟩ | ⟨h1, h2⟩ | ⟨h1, h2⟩ | ⟨h1, h2⟩)
    · exact Or.inr (Or.inr (Or.inl ⟨by omega, by omega⟩))
    · exact Or.inr (Or.inr (Or.inr (⟨by omega, by omega⟩)))
    · exact Or.inl ⟨by omega, by omega⟩
    · exact Or.inr (Or.inl ⟨by omega, by omega⟩)

theorem hollowCirclePts_symm (x0 y0 r dx dy : Int) :
    ((x0 + dx, y0 + dy) ∈ hollowCirclePts x0 y0 r ↔
      (x0 - dx, y0 + dy) ∈ hollowCirclePts x0 y0 r) ∧
    ((x0 + dx, y0 + dy) ∈ hollowCirclePts x0 y0 r ↔
      (x0 + dx, y0 - dy) ∈ hollowCirclePts x0 y0 r) := by
  unfold hollowCirclePts
  simp only [List.mem_flatMap]
  exact ⟨exists_congr fun s => and_congr_right fun _ =>
      oct8_symm_x x0 y0 s.1 s.2.1 dx dy,
    exists_congr fun s => and_congr_right fun _ =>
      oct8_symm_y x0 y0 s.1 s.2.1 dx dy⟩

theorem hollowEllipsePts_symm (x0 y0 wr hr dx dy : Int) :
    ((x0 + dx, y0 + dy) ∈ hollowEllipsePts x0 y0 wr hr ↔
      (x0 - dx, y0 + dy) ∈ hollowEllipsePts x0 y0 wr hr) ∧
    ((x0 + dx, y0 + dy) ∈ hollowEllipsePts x0 y0 wr hr ↔
      (x0 + dx, y0 - dy) ∈ hollowEllipsePts x0 y0 wr hr) := by
  unfold hollowEllipsePts
  by_cases he : wr = hr
  · rw [if_pos he]
    exact hollowCirclePts_symm x0 y0 wr dx dy
  · rw [if_neg he]
    simp only [List.mem_flatMap]
    exact ⟨exists_congr fun s => and_congr_right fun _ => quad4_symm_x x0 y0 dx dy s,
      exists_congr fun s => and_congr_right fun _ => quad4_symm_y x0 y0 dx dy s⟩

/-! ### Pixel-level congruence and written-pixel observation -/

/-- Two canvases agree observably: same dimensions and same in-bounds pixels. -/
def PixEqOn {C : Type} (a b : Canvas C) : Prop :=
  a.width = b.width ∧ a.height = b.height ∧
    ∀ X Y : Nat, X < a.width → Y < a.height → a.pix X Y = b.pix X Y

theorem plotAll_congr {C : Type} (c : C) (pts : List (Int × Int)) (a b : Canvas C)
    (h : PixEqOn a b) : PixEqOn (plotAll a c pts) (plotAll b c pts) := by
  obtain ⟨hW, hH, hpix⟩ := h
  refine ⟨by rw [plotAll_width, plotAll_width, hW],
    by rw [plotAll_height, plotAll_height, hH], fun X Y hX hY => ?_⟩
  rw [plotAll_width] at hX
  rw [plotAll_height] at hY
  rw [plotAll_pix, plotAll_pix, ← hW, ← hH]
  split_ifs with h1 h2
  · rfl
  · exact hpix X Y hX hY

/-- The draw call `res` (on original canvas `orig`) visibly wrote pixel
`(a, b)`: the coordinate is a real canvas pixel and its value changed. -/
def writtenAt {C : Type} [DecidableEq C] (orig res : Canvas C) (a b : Int) : Prop :=
  0 ≤ a ∧ a < (orig.width : Int) ∧ 0 ≤ b ∧ b < (orig.height : Int) ∧
    res.pix a.toNat b.toNat ≠ orig.pix a.toNat b.toNat

/-! ### Degenerate radii -/

theorem trace2_vertical_mem (h2 : Int) :
    ∀ (n : Nat) (y p4 : Int), y.toNat ≤ n → 0 < p4 →
      ∀ u v : Int, ((u, v) ∈ ellipseTrace2 0 h2 0 y 0 0 p4 ↔
        u = 0 ∧ 0 ≤ v ∧ v < y) := by
  intro n
  induction n with
  | zero =>
    intro y p4 hm hp u v
    rw [ellipseTrace2, dif_neg (by omega : ¬ 0 < y)]
    simp only [List.not_mem_nil, false_iff]
    omega
  | succ n IH =>
    intro y p4 hm hp u v
    by_cases hg : 0 < y
    · rw [ellipseTrace2]
      simp only [dif_pos hg, if_pos hp]
      have e0 : (0 : Int) - 2 * 0 = 0 := by ring
      rw [e0]
      have e1 : (0 : Int) - 0 = 0 := by ring
      rw [e1, i2f_zero, List.mem_cons]
      rw [IH (y - 1) (fadd p4 0) (by omega) (fadd_zero_pos hp) u v]
      constructor
      · rintro (h | h)
        · rw [Prod.mk.injEq] at h
          omega
        · omega
      · intro h
        by_cases hv : v = y - 1
        · left
          rw [Prod.mk.injEq]
          omega
        · right
          omega
    · rw [ellipseTrace2, dif_neg hg]
      simp only [List.not_mem_nil, false_iff]
      omega


theorem ellipseOffsets_vertical (h : Int) (hpos : 0 < h) :
    ∀ u v : Int, ((u, v) ∈ ellipseOffsets 0 h ↔ u = 0 ∧ 0 ≤ v ∧ v ≤ h) := by
  have hp2 : 0 < fsub (fadd (fmul (i2f (h * h))
      (fmul (fadd (i2f 0) 2) (fadd (i2f 0) 2))) (i2f 0)) (i2f 0) := by
    rw [i2f_zero]
    have h22 : fadd 0 2 = 2 := by decide
    rw [h22]
    have hm4 : fmul 2 2 = 1 := by decide
    rw [hm4]
    exact fsub_zero_pos (fadd_zero_pos (fmul_i2f_one_pos (h * h) (mul_pos hpos hpos)))
  intro u v
  simp only [ellipseOffsets]
  rw [ellipseTrace1, dif_neg (by norm_num : ¬ (0 : Int) < 2 * (0 * 0) * h)]
  norm_num
  rw [trace2_vertical_mem (h * h) h.toNat h _ (le_refl _) hp2 u v]
  omega

theorem ellipseOffsets_point (w : Int) : ellipseOffsets w 0 = [(0, 0)] := by
  simp only [ellipseOffsets]
  rw [ellipseTrace1, dif_neg (by norm_num : ¬ (0 : Int) < 2 * (w * w) * 0)]
  norm_num
  rw [ellipseTrace2, dif_neg (by norm_num : ¬ (0 : Int) < 0)]

theorem hollowEllipsePts_vertical (x0 y0 h : Int) (hpos : 0 < h) :
    ∀ u v : Int, ((u, v) ∈ hollowEllipsePts x0 y0 0 h ↔
      u = x0 ∧ y0 - h ≤ v ∧ v ≤ y0 + h) := by
  intro u v
  unfold hollowEllipsePts
  rw [if_neg (by omega : ¬ (0 : Int) = h)]
  simp only [List.mem_flatMap]
  constructor
  · rintro ⟨q, hq, hm⟩
    obtain ⟨q1, q2⟩ := q
    rw [ellipseOffsets_vertical h hpos] at hq
    simp only [quad4, List.mem_cons, List.not_mem_nil, or_false, Prod.mk.injEq] at hm
    omega
  · rintro ⟨hu, h1, h2⟩
    by_cases hv : y0 ≤ v
    · refine ⟨(0, v - y0), (ellipseOffsets_vertical h hpos 0 (v - y0)).mpr
        ⟨rfl, by omega, by omega⟩, ?_⟩
      simp only [quad4, List.mem_cons, List.not_mem_nil, or_false, Prod.mk.injEq]
      exact Or.inl ⟨by omega, by omega⟩
    · refine ⟨(0, y0 - v), (ellipseOffsets_vertical h hpos 0 (y0 - v)).mpr
        ⟨rfl, by omega, by omega⟩, ?_⟩
      simp only [quad4, List.mem_cons, List.not_mem_nil, or_false, Prod.mk.injEq]
      exact Or.inr (Or.inr (Or.inl ⟨by omega, by omega⟩))

theorem filledEllipsePts_vertical (x0 y0 h : Int) (hpos : 0 < h) :
    ∀ u v : Int, ((u, v) ∈ filledEllipsePts x0 y0 0 h ↔
      u = x0 ∧ y0 - h ≤ v ∧ v ≤ y0 + h) := by
  intro u v
  unfold filledEllipsePts
  rw [if_neg (by omega : ¬ (0 : Int) = h)]
  simp only [List.mem_flatMap]
  constructor
  · rintro ⟨q, hq, hm⟩
    obtain ⟨q1, q2⟩ := q
    rw [ellipseOffsets_vertical h hpos] at hq
    simp only [pairSpanPts] at hm
    rcases List.mem_append.mp hm with hm1 | hm1 <;>
      obtain ⟨he, hlo, hhi⟩ := mem_spanPts.mp hm1 <;>
      rw [min_eq_left (by omega)] at hlo <;>
      rw [max_eq_right (by omega)] at hhi <;>
      omega
  · rintro ⟨hu, h1, h2⟩
    by_cases hv : y0 ≤ v
    · refine ⟨(0, v - y0), (ellipseOffsets_vertical h hpos 0 (v - y0)).mpr
        ⟨rfl, by omega, by omega⟩, ?_⟩
      simp only [pairSpanPts]
      refine List.mem_append.mpr (Or.inl (mem_spanPts.mpr ⟨by omega, ?_, ?_⟩))
      · rw [min_eq_left (by omega)]
        omega
      · rw [max_eq_right (by omega)]
        omega
    · refine ⟨(0, y0 - v), (ellipseOffsets_vertical h hpos 0 (y0 - v)).mpr
        ⟨rfl, by omega, by omega⟩, ?_⟩
      simp only [pairSpanPts]
      refine List.mem_append.mpr (Or.inr (mem_spanPts.mpr ⟨by omega, ?_, ?_⟩))
      · rw [min_eq_left (by omega)]
        omega
      · rw [max_eq_right (by omega)]
        omega

theorem hollowEllipsePts_point (x0 y0 w : Int) (hpos : 0 < w) :
    ∀ u v : Int, ((u, v) ∈ hollowEllipsePts x0 y0 w 0 ↔ u = x0 ∧ v = y0) := by
  intro u v
  unfold hollowEllipsePts
  rw [if_neg (by omega : ¬ w = (0 : Int)), ellipseOffsets_point w]
  simp only [List.flatMap_cons, List.flatMap_nil, List.append_nil, quad4,
    List.mem_cons, List.not_mem_nil, or_false, Prod.mk.injEq]
  omega

theorem filledEllipsePts_point (x0 y0 w : Int) (hpos : 0 < w) :
    ∀ u v : Int, ((u, v) ∈ filledEllipsePts x0 y0 w 0 ↔ u = x0 ∧ v = y0) := by
  intro u v
  unfold filledEllipsePts
  rw [if_neg (by omega : ¬ w = (0 : Int)), ellipseOffsets_point w]
  simp only [List.flatMap_cons, List.flatMap_nil, List.append_nil, pairSpanPts]
  constructor
  · intro hm
    rcases List.mem_append.mp hm with hm1 | hm1 <;>
      obtain ⟨he, hlo, hhi⟩ := mem_spanPts.mp hm1 <;>
      rw [min_eq_left (by omega)] at hlo <;>
      rw [max_eq_right (by omega)] at hhi <;>
      omega
  · rintro ⟨hu, hv⟩
    refine List.mem_append.mpr (Or.inl (mem_spanPts.mpr ⟨by omega, ?_, ?_⟩))
    · rw [min_eq_left (by omega)]
      omega
    · rw [max_eq_right (by omega)]
      omega

/-! ### Concrete canvases used by witnesses and counterexamples -/

/-- A 2 by 2 all-zero gray canvas. -/
def cv2 : Canvas Nat := { width := 2, height := 2, pix := fun _ _ => 0 }

/-- A 3 by 3 all-zero gray canvas. -/
def ex3 : Canvas Nat := { width := 3, height := 3, pix := fun _ _ => 0 }

/-- A 5 by 5 all-zero gray canvas. -/
def cv5 : Canvas Nat := { width := 5, height := 5, pix := fun _ _ => 0 }

/-- Drawing a list of points on an unbounded canvas: every listed coordinate
holds the shape's color, every other coordinate keeps the base value. -/
def infiniteDraw {C : Type} (base : Int × Int → C) (c : C) (pts : List (Int × Int)) :
    Int × Int → C :=
  fun q => if q ∈ pts then c else base q

/-! ### The claims -/

/-- Claim C2: with equal radii every ellipse routine — hollow or filled,
mutating or non-mutating — delegates entirely to the corresponding circle
routine with that shared radius, so the outputs are identical canvases. -/
theorem claim_C2_circle_delegation {C : Type} [Inhabited C] (img : Canvas C)
    (center : Int × Int) (r : Int) (c : C) :
    draw_hollow_ellipse_mut img center r r c = draw_hollow_circle_mut img center r c ∧
    draw_filled_ellipse_mut img center r r c = draw_filled_circle_mut img center r c ∧
    draw_hollow_ellipse img center r r c = draw_hollow_circle img center r c ∧
    draw_filled_ellipse img center r r c = draw_filled_circle img center r c := by
  refine ⟨?_, ?_, ?_, ?_⟩ <;>
    simp [draw_hollow_ellipse_mut, draw_filled_ellipse_mut, draw_hollow_ellipse,
      draw_filled_ellipse, draw_hollow_circle, draw_filled_circle]

/-- Claim C5: both circle loops follow one state machine — the one the spec
describes — whose states are listed by `circleStates`: the hollow routine plots
the eight octant points of every state, the filled routine draws the four
horizontal spans of every state, the guard `y ≤ x` holds at every listed state,
and `circleStates` steps by incrementing `y`, adding `1 + 2y` to `err`, and,
exactly when `2(err - x) + 1 > 0`, decrementing `x` and adding `1 - 2x`. -/
theorem claim_C5_circle_machine {C : Type} (img : Canvas C) (center : Int × Int)
    (r : Int) (c : C) :
    draw_hollow_circle_mut img center r c =
      plotAll img c (hollowCirclePts center.1 center.2 r) ∧
    draw_filled_circle_mut img center r c =
      plotAll img c (filledCirclePts center.1 center.2 r) ∧
    (∀ s ∈ circleStates r 0 0, 0 ≤ s.2.1 ∧ s.2.1 ≤ s.1) ∧
    (∀ x y err : Int, circleStates x y err =
      if y ≤ x then
        (x, y, err) ::
          (if 0 < 2 * (err + 1 + 2 * (y + 1) - x) + 1 then
            circleStates (x - 1) (y + 1) (err + 1 + 2 * (y + 1) + 1 - 2 * (x - 1))
          else circleStates x (y + 1) (err + 1 + 2 * (y + 1)))
      else []) := by
  refine ⟨draw_hollow_circle_mut_eq img center r c,
    draw_filled_circle_mut_eq img center r c, fun s hs => ?_, fun x y err => ?_⟩
  · obtain ⟨h1, h2, h3⟩ := circleStates_le (r - 0 + 1).toNat r 0 0 (le_refl _) s hs
    exact ⟨h2, h3⟩
  · rw [circleStates]
    by_cases h : y ≤ x
    · simp only [dif_pos h, if_pos h]
    · simp only [dif_neg h, if_neg h]

/-- Claim C9: a negative radius fails the loop guard immediately, so both
mutating circle routines return the canvas unchanged, and the non-mutating
wrappers return the untouched copy of the input, which agrees with the input
on every pixel. -/
theorem claim_C9_negative_radius {C : Type} [Inhabited C] (img : Canvas C)
    (center : Int × Int) (r : Int) (c : C) (hneg : r < 0) :
    draw_hollow_circle_mut img center r c = img ∧
    draw_filled_circle_mut img center r c = img ∧
    draw_hollow_circle img center r c = copyCanvas img ∧
    draw_filled_circle img center r c = copyCanvas img ∧
    PixEqOn (copyCanvas img) img := by
  have h1 : ∀ im : Canvas C, hollowCircleLoop im center.1 center.2 r 0 0 c = im := by
    intro im
    rw [hollowCircleLoop, dif_neg (by omega : ¬ (0 : Int) ≤ r)]
  have h2 : ∀ im : Canvas C, filledCircleLoop im center.1 center.2 r 0 0 c = im := by
    intro im
    rw [filledCircleLoop, dif_neg (by omega : ¬ (0 : Int) ≤ r)]
  exact ⟨h1 img, h2 img, h1 (copyCanvas img), h2 (copyCanvas img),
    rfl, rfl, fun X Y hX hY => if_pos ⟨hX, hY⟩⟩

theorem claim_C9_witness :
    draw_hollow_circle_mut cv2 (0, 0) (-1) (5 : Nat) = cv2 ∧
    draw_hollow_circle cv2 (0, 0) (-1) (5 : Nat) = copyCanvas cv2 :=
  ⟨(claim_C9_negative_radius cv2 (0, 0) (-1) 5 (by norm_num)).1,
    (claim_C9_negative_radius cv2 (0, 0) (-1) 5 (by norm_num)).2.2.1⟩

/-- Claim C3: each non-mutating entry point returns exactly the canvas obtained
by copying the input into a fresh canvas of the same dimensions and running
the corresponding mutating routine on that copy; the copy carries all the
input's pixel content, the returned canvas keeps the input's dimensions, and
it agrees pixel for pixel with what the mutating routine does to the input. -/
theorem claim_C3_wrappers {C : Type} [Inhabited C] (img : Canvas C)
    (center : Int × Int) (r wr hr : Int) (c : C) :
    draw_hollow_circle img center r c =
      draw_hollow_circle_mut (copyCanvas img) center r c ∧
    draw_filled_circle img center r c =
      draw_filled_circle_mut (copyCanvas img) center r c ∧
    draw_hollow_ellipse img center wr hr c =
      draw_hollow_ellipse_mut (copyCanvas img) center wr hr c ∧
    draw_filled_ellipse img center wr hr c =
      draw_filled_ellipse_mut (copyCanvas img) center wr hr c ∧
    PixEqOn (copyCanvas img) img ∧
    (draw_hollow_circle img center r c).width = img.width ∧
    (draw_hollow_circle img center r c).height = img.height ∧
    (draw_filled_circle img center r c).width = img.width ∧
    (draw_filled_circle img center r c).height = img.height ∧
    (draw_hollow_ellipse img center wr hr c).width = img.width ∧
    (draw_hollow_ellipse img center wr hr c).height = img.height ∧
    (draw_filled_ellipse img center wr hr c).width = img.width ∧
    (draw_filled_ellipse img center wr hr c).height = img.height ∧
    PixEqOn (draw_hollow_circle img center r c)
      (draw_hollow_circle_mut img center r c) ∧
    PixEqOn (draw_filled_circle img center r c)
      (draw_filled_circle_mut img center r c) ∧
    PixEqOn (draw_hollow_ellipse img center wr hr c)
      (draw_hollow_ellipse_mut img center wr hr c) ∧
    PixEqOn (draw_filled_ellipse img center wr hr c)
      (draw_filled_ellipse_mut img center wr hr c) := by
  have hcopy : PixEqOn (copyCanvas img) img :=
    ⟨rfl, rfl, fun X Y hX hY => if_pos ⟨hX, hY⟩⟩
  refine ⟨rfl, rfl, rfl, rfl, hcopy, ?_, ?_, ?_, ?_, ?_, ?_, ?_, ?_, ?_, ?_, ?_, ?_⟩
  · rw [draw_hollow_circle, draw_hollow_circle_mut_eq, plotAll_width]; rfl
  · rw [draw_hollow_circle, draw_hollow_circle_mut_eq, plotAll_height]; rfl
  · rw [draw_filled_circle, draw_filled_circle_mut_eq, plotAll_width]; rfl
  · rw [draw_filled_circle, draw_filled_circle_mut_eq, plotAll_height]; rfl
  · rw [draw_hollow_ellipse, draw_hollow_ellipse_mut_eq, plotAll_width]; rfl
  · rw [draw_hollow_ellipse, draw_hollow_ellipse_mut_eq, plotAll_height]; rfl
  · rw [draw_filled_ellipse, draw_filled_ellipse_mut_eq, plotAll_width]; rfl
  · rw [draw_filled_ellipse, draw_filled_ellipse_mut_eq, plotAll_height]; rfl
  · rw [draw_hollow_circle, draw_hollow_circle_mut_eq, draw_hollow_circle_mut_eq]
    exact plotAll_congr c _ _ _ hcopy
  · rw [draw_filled_circle, draw_filled_circle_mut_eq, draw_filled_circle_mut_eq]
    exact plotAll_congr c _ _ _ hcopy
  · rw [draw_hollow_ellipse, draw_hollow_ellipse_mut_eq, draw_hollow_ellipse_mut_eq]
    exact plotAll_congr c _ _ _ hcopy
  · rw [draw_filled_ellipse, draw_filled_ellipse_mut_eq, draw_filled_ellipse_mut_eq]
    exact plotAll_congr c _ _ _ hcopy

theorem plotAll_infinite {C : Type} (img : Canvas C) (c : C)
    (pts : List (Int × Int)) (X Y : Nat) (hX : X < img.width) (hY : Y < img.height) :
    (plotAll img c pts).pix X Y =
      infiniteDraw (fun q => img.pix q.1.toNat q.2.toNat) c pts ((X : Int), (Y : Int)) := by
  rw [plotAll_pix]
  unfold infiniteDraw
  refine if_congr ⟨fun h => h.1, fun h => ⟨h, hX, hY⟩⟩ rfl ?_
  simp

/-- Every draw call is the restriction to the canvas of the same drawing on an
unbounded canvas, and a circle whose bounding box misses the canvas leaves the
canvas untouched.  The matching off-canvas statement for the ellipse routines
would need every rendered offset to stay inside the bounding box, which hinges
on the binary32 branch decisions of the stepper and is not established in this
development. -/
theorem draw_clipping_restriction {C : Type} (img : Canvas C) (x0 y0 wr hr r : Int)
    (c : C) (hr0 : 0 ≤ r) :
    (∀ X Y : Nat, X < img.width → Y < img.height →
      (draw_hollow_circle_mut img (x0, y0) r c).pix X Y =
        infiniteDraw (fun q => img.pix q.1.toNat q.2.toNat) c
          (hollowCirclePts x0 y0 r) ((X : Int), (Y : Int)) ∧
      (draw_filled_circle_mut img (x0, y0) r c).pix X Y =
        infiniteDraw (fun q => img.pix q.1.toNat q.2.toNat) c
          (filledCirclePts x0 y0 r) ((X : Int), (Y : Int)) ∧
      (draw_hollow_ellipse_mut img (x0, y0) wr hr c).pix X Y =
        infiniteDraw (fun q => img.pix q.1.toNat q.2.toNat) c
          (hollowEllipsePts x0 y0 wr hr) ((X : Int), (Y : Int)) ∧
      (draw_filled_ellipse_mut img (x0, y0) wr hr c).pix X Y =
        infiniteDraw (fun q => img.pix q.1.toNat q.2.toNat) c
          (filledEllipsePts x0 y0 wr hr) ((X : Int), (Y : Int))) ∧
    ((x0 + r < 0 ∨ (img.width : Int) ≤ x0 - r ∨ y0 + r < 0 ∨
        (img.height : Int) ≤ y0 - r) →
      draw_hollow_circle_mut img (x0, y0) r c = img ∧
      draw_filled_circle_mut img (x0, y0) r c = img) := by
  refine ⟨fun X Y hX hY => ?_, fun hdisj => ?_⟩
  · refine ⟨?_, ?_, ?_, ?_⟩
    · rw [draw_hollow_circle_mut_eq]
      exact plotAll_infinite img c _ X Y hX hY
    · rw [draw_filled_circle_mut_eq]
      exact plotAll_infinite img c _ X Y hX hY
    · rw [draw_hollow_ellipse_mut_eq]
      exact plotAll_infinite img c _ X Y hX hY
    · rw [draw_filled_ellipse_mut_eq]
      exact plotAll_infinite img c _ X Y hX hY
  · constructor
    · rw [draw_hollow_circle_mut_eq]
      refine plotAll_of_oob c _ img (fun q hq => ?_)
      have hb := hollowCirclePts_bbox x0 y0 r hr0 q hq
      unfold InCenteredBox at hb
      omega
    · rw [draw_filled_circle_mut_eq]
      refine plotAll_of_oob c _ img (fun q hq => ?_)
      have hb := filledCirclePts_bbox x0 y0 r hr0 q hq
      unfold InCenteredBox at hb
      omega

/-- Claim C1: no draw call ever writes a pixel outside the canvas: the
bounds-checked write sets the pixel exactly when `0 ≤ x < W` and `0 ≤ y < H`
and otherwise returns the canvas unchanged with no error, every routine leaves
every out-of-bounds coordinate of the pixel map untouched, and every routine
preserves the canvas dimensions. -/
theorem claim_C1_bounds_clamped {C : Type} [Inhabited C] (img : Canvas C)
    (center : Int × Int) (wr hr r x y : Int) (c : C) (X Y : Nat) :
    ((0 ≤ x ∧ x < (img.width : Int) ∧ 0 ≤ y ∧ y < (img.height : Int)) →
      draw_if_in_bounds img x y c = setPix img x.toNat y.toNat c) ∧
    (¬(0 ≤ x ∧ x < (img.width : Int) ∧ 0 ≤ y ∧ y < (img.height : Int)) →
      draw_if_in_bounds img x y c = img) ∧
    ((img.width ≤ X ∨ img.height ≤ Y) →
      (draw_hollow_circle_mut img center r c).pix X Y = img.pix X Y ∧
      (draw_filled_circle_mut img center r c).pix X Y = img.pix X Y ∧
      (draw_hollow_ellipse_mut img center wr hr c).pix X Y = img.pix X Y ∧
      (draw_filled_ellipse_mut img center wr hr c).pix X Y = img.pix X Y ∧
      (draw_hollow_circle img center r c).pix X Y = (copyCanvas img).pix X Y ∧
      (draw_filled_circle img center r c).pix X Y = (copyCanvas img).pix X Y ∧
      (draw_hollow_ellipse img center wr hr c).pix X Y = (copyCanvas img).pix X Y ∧
      (draw_filled_ellipse img center wr hr c).pix X Y = (copyCanvas img).pix X Y) ∧
    (draw_hollow_circle_mut img center r c).width = img.width ∧
    (draw_hollow_circle_mut img center r c).height = img.height ∧
    (draw_filled_circle_mut img center r c).width = img.width ∧
    (draw_filled_circle_mut img center r c).height = img.height ∧
    (draw_hollow_ellipse_mut img center wr hr c).width = img.width ∧
    (draw_hollow_ellipse_mut img center wr hr c).height = img.height ∧
    (draw_filled_ellipse_mut img center wr hr c).width = img.width ∧
    (draw_filled_ellipse_mut img center wr hr c).height = img.height := by
  have hoob : ∀ (im : Canvas C) (pts : List (Int × Int)),
      im.width ≤ X ∨ im.height ≤ Y → (plotAll im c pts).pix X Y = im.pix X Y := by
    intro im pts hxy
    rw [plotAll_pix, if_neg (by omega)]
  refine ⟨fun h => ?_, fun h => ?_, fun hxy => ?_, ?_, ?_, ?_, ?_, ?_, ?_, ?_, ?_⟩
  · rw [draw_if_in_bounds, if_pos h]
  · rw [draw_if_in_bounds, if_neg h]
  · refine ⟨?_, ?_, ?_, ?_, ?_, ?_, ?_, ?_⟩
    · rw [draw_hollow_circle_mut_eq]
      exact hoob img _ hxy
    · rw [draw_filled_circle_mut_eq]
      exact hoob img _ hxy
    · rw [draw_hollow_ellipse_mut_eq]
      exact hoob img _ hxy
    · rw [draw_filled_ellipse_mut_eq]
      exact hoob img _ hxy
    · rw [draw_hollow_circle, draw_hollow_circle_mut_eq]
      exact hoob (copyCanvas img) _ hxy
    · rw [draw_filled_circle, draw_filled_circle_mut_eq]
      exact hoob (copyCanvas img) _ hxy
    · rw [draw_hollow_ellipse, draw_hollow_ellipse_mut_eq]
      exact hoob (copyCanvas img) _ hxy
    · rw [draw_filled_ellipse, draw_filled_ellipse_mut_eq]
      exact hoob (copyCanvas img) _ hxy
  · rw [draw_hollow_circle_mut_eq, plotAll_width]
  · rw [draw_hollow_circle_mut_eq, plotAll_height]
  · rw [draw_filled_circle_mut_eq, plotAll_width]
  · rw [draw_filled_circle_mut_eq, plotAll_height]
  · rw [draw_hollow_ellipse_mut_eq, plotAll_width]
  · rw [draw_hollow_ellipse_mut_eq, plotAll_height]
  · rw [draw_filled_ellipse_mut_eq, plotAll_width]
  · rw [draw_filled_ellipse_mut_eq, plotAll_height]

theorem claim_C1_witness :
    draw_if_in_bounds cv2 (-1) 0 (5 : Nat) = cv2 ∧
    (draw_hollow_circle_mut cv2 (0, 0) 1 (5 : Nat)).pix 7 0 = cv2.pix 7 0 :=
  ⟨(claim_C1_bounds_clamped cv2 (0, 0) 1 1 1 (-1) 0 5 7 0).2.1
      (by norm_num [cv2]),
    ((claim_C1_bounds_clamped cv2 (0, 0) 1 1 1 (-1) 0 5 7 0).2.2.1
      (by norm_num [cv2])).1⟩

/-- Claim C6 (amended): with unequal radii the ellipse routines run the
two-region midpoint machine the spec describes with its decision variable
computed in binary32 (`f32`) arithmetic: the hollow routine plots the four
symmetric points of every offset the machine `specEllipseOffsets` renders, the
filled routine draws the two spans of every such offset, and the source
stepper's offset trace coincides with that machine step for step.  Under the
spec's exact-arithmetic reading of the `p` recurrences the correspondence
fails once `|4p|` exceeds `2^24`: see the counterexample. -/
theorem claim_C6_ellipse_machine {C : Type} (img : Canvas C) (center : Int × Int)
    (wr hr : Int) (c : C) (hne : wr ≠ hr) :
    draw_hollow_ellipse_mut img center wr hr c =
      plotAll img c ((specEllipseOffsets wr hr).flatMap (quad4 center.1 center.2)) ∧
    draw_filled_ellipse_mut img center wr hr c =
      plotAll img c ((specEllipseOffsets wr hr).flatMap (pairSpanPts center.1 center.2)) ∧
    ellipseOffsets wr hr = specEllipseOffsets wr hr := by
  refine ⟨?_, ?_, ellipseOffsets_eq_spec wr hr⟩
  · rw [draw_hollow_ellipse_mut_eq]
    unfold hollowEllipsePts
    rw [if_neg hne, ellipseOffsets_eq_spec]
  · rw [draw_filled_ellipse_mut_eq]
    unfold filledEllipsePts
    rw [if_neg hne, ellipseOffsets_eq_spec]

theorem claim_C6_witness : ellipseOffsets 2 1 = specEllipseOffsets 2 1 :=
  (claim_C6_ellipse_machine cv2 (0, 0) 2 1 (5 : Nat) (by norm_num)).2.2

/-- Claim C6 is false under the spec's exact-arithmetic reading of the
decision variable: at `width_radius = 46`, `height_radius = 51` the region-two
recomputation of `p` lands on `5477646.25`, whose quarter count `21910585`
exceeds `2^24`, so the `f32` of the source rounds it to `5477646.0`; the
branch decisions then drift and the rendered offset trace of the source
stepper departs from the exact machine (the program renders the offset
`(42, 22)` where the exact machine renders `(41, 22)`). -/
theorem claim_C6_counterexample :
    ellipseOffsets 46 51 ≠ specEllipseOffsetsExact 46 51 := by
  rw [ellipseOffsets_eval, specEllipseOffsetsExact_eval]
  decide

/-- Claim C8 (amended): the multiset of coordinates a hollow circle or hollow
ellipse passes to the bounds-checked write is symmetric across the vertical
line through the center and across the horizontal line through the center;
after clipping, a pixel is written iff its reflection is written whenever both
reflections land inside the canvas, but a write whose mirror coordinate falls
outside the canvas has no written counterpart. -/
theorem claim_C8_symmetry (x0 y0 r wr hr dx dy : Int) :
    (((x0 + dx, y0 + dy) ∈ hollowCirclePts x0 y0 r ↔
        (x0 - dx, y0 + dy) ∈ hollowCirclePts x0 y0 r) ∧
      ((x0 + dx, y0 + dy) ∈ hollowCirclePts x0 y0 r ↔
        (x0 + dx, y0 - dy) ∈ hollowCirclePts x0 y0 r)) ∧
    (((x0 + dx, y0 + dy) ∈ hollowEllipsePts x0 y0 wr hr ↔
        (x0 - dx, y0 + dy) ∈ hollowEllipsePts x0 y0 wr hr) ∧
      ((x0 + dx, y0 + dy) ∈ hollowEllipsePts x0 y0 wr hr ↔
        (x0 + dx, y0 - dy) ∈ hollowEllipsePts x0 y0 wr hr)) :=
  ⟨hollowCirclePts_symm x0 y0 r dx dy, hollowEllipsePts_symm x0 y0 wr hr dx dy⟩

/-- Claim C8 is false as stated: on a 3 by 3 canvas, the hollow circle of
radius 1 centered at `(0, 1)` writes the pixel `(x0 + 1, y0 + 0) = (1, 1)`,
but the reflected coordinate `(x0 - 1, y0 + 0) = (-1, 1)` lies outside the
canvas, so no pixel is written there: the set of written pixels is not
symmetric across the vertical line through the center. -/
theorem claim_C8_counterexample :
    writtenAt ex3 (draw_hollow_circle_mut ex3 (0, 1) 1 (1 : Nat)) (0 + 1) (1 + 0) ∧
    ¬ writtenAt ex3 (draw_hollow_circle_mut ex3 (0, 1) 1 (1 : Nat)) (0 - 1) (1 + 0) := by
  have hmem : ((1 : Int), (1 : Int)) ∈ hollowCirclePts 0 1 1 :=
    List.mem_flatMap.mpr ⟨(1, 0, 0),
      by rw [circleStates, dif_pos (by norm_num : (0 : Int) ≤ 1)]
         exact List.mem_cons_self _ _,
      by simp [oct8]⟩
  constructor
  · refine ⟨by norm_num, by norm_num [ex3], by norm_num, by norm_num [ex3], ?_⟩
    rw [draw_hollow_circle_mut_eq, plotAll_pix]
    rw [if_pos ⟨by exact_mod_cast hmem, by norm_num [ex3], by norm_num [ex3]⟩]
    norm_num [ex3]
  · intro h
    have h1 := h.1
    norm_num at h1

/-- Claim C7 (amended): a zero radius on exactly one axis degenerates by the
same arithmetic with no extra branch: a zero width radius with positive height
radius `h` draws exactly the vertical segment from `(x0, y0 - h)` to
`(x0, y0 + h)` clipped to bounds, for both the hollow and the filled routine;
a zero height radius with positive width radius draws exactly the center pixel
`(x0, y0)` clipped to bounds (not a horizontal segment), again for both. -/
theorem claim_C7_degenerate {C : Type} (img : Canvas C) (x0 y0 h w : Int)
    (c : C) (hh : 0 < h) (hw : 0 < w) :
    ∀ X Y : Nat,
      (draw_hollow_ellipse_mut img (x0, y0) 0 h c).pix X Y =
        (if ((X : Int) = x0 ∧ y0 - h ≤ (Y : Int) ∧ (Y : Int) ≤ y0 + h) ∧
            X < img.width ∧ Y < img.height then c else img.pix X Y) ∧
      (draw_filled_ellipse_mut img (x0, y0) 0 h c).pix X Y =
        (if ((X : Int) = x0 ∧ y0 - h ≤ (Y : Int) ∧ (Y : Int) ≤ y0 + h) ∧
            X < img.width ∧ Y < img.height then c else img.pix X Y) ∧
      (draw_hollow_ellipse_mut img (x0, y0) w 0 c).pix X Y =
        (if ((X : Int) = x0 ∧ (Y : Int) = y0) ∧ X < img.width ∧ Y < img.height
          then c else img.pix X Y) ∧
      (draw_filled_ellipse_mut img (x0, y0) w 0 c).pix X Y =
        (if ((X : Int) = x0 ∧ (Y : Int) = y0) ∧ X < img.width ∧ Y < img.height
          then c else img.pix X Y) := by
  intro X Y
  refine ⟨?_, ?_, ?_, ?_⟩
  · rw [draw_hollow_ellipse_mut_eq, plotAll_pix]
    exact if_congr (and_congr_left' (hollowEllipsePts_vertical x0 y0 h hh X Y)) rfl rfl
  · rw [draw_filled_ellipse_mut_eq, plotAll_pix]
    exact if_congr (and_congr_left' (filledEllipsePts_vertical x0 y0 h hh X Y)) rfl rfl
  · rw [draw_hollow_ellipse_mut_eq, plotAll_pix]
    exact if_congr (and_congr_left' (hollowEllipsePts_point x0 y0 w hw X Y)) rfl rfl
  · rw [draw_filled_ellipse_mut_eq, plotAll_pix]
    exact if_congr (and_congr_left' (filledEllipsePts_point x0 y0 w hw X Y)) rfl rfl

theorem claim_C7_witness :
    (draw_hollow_ellipse_mut cv5 (2, 2) 0 1 (5 : Nat)).pix 2 3 = 5 ∧
    (draw_hollow_ellipse_mut cv5 (2, 2) 1 0 (5 : Nat)).pix 1 2 = 0 := by
  have h1 := (claim_C7_degenerate cv5 2 2 1 1 (5 : Nat) (by norm_num) (by norm_num) 2 3).1
  have h2 := (claim_C7_degenerate cv5 2 2 1 1 (5 : Nat) (by norm_num) (by norm_num) 1 2).2.2.1
  constructor
  · rw [h1, if_pos (by norm_num [cv5])]
  · rw [h2, if_neg (by norm_num)]
    norm_num [cv5]

/-- Claim C7 is false as stated for a zero height radius: with
`width_radius = 1`, `height_radius = 0` and center `(2, 2)` on a 5 by 5
canvas, the claim predicts the horizontal segment from `(1, 2)` to `(3, 2)` is
drawn, but the routine writes only the center pixel: pixel `(1, 2)` keeps its
background value `0` instead of receiving the drawing color `1`. -/
theorem claim_C7_counterexample :
    (draw_hollow_ellipse_mut cv5 (2, 2) 1 0 (1 : Nat)).pix 1 2 = 0 ∧
    (draw_hollow_ellipse_mut cv5 (2, 2) 1 0 (1 : Nat)).pix 2 2 = 1 ∧
    (0 : Nat) ≠ 1 := by
  refine ⟨?_, ?_, by norm_num⟩
  · rw [draw_hollow_ellipse_mut_eq, plotAll_pix, if_neg]
    · norm_num [cv5]
    · rintro ⟨hm, -⟩
      have := (hollowEllipsePts_point 2 2 1 (by norm_num) 1 2).mp hm
      norm_num at this
  · rw [draw_hollow_ellipse_mut_eq, plotAll_pix, if_pos]
    exact ⟨(hollowEllipsePts_point 2 2 1 (by norm_num) 2 2).mpr (by norm_num),
      by norm_num [cv5], by norm_num [cv5]⟩
